import Mathlib

/-!
Verification of the TCP chat server in `main.go` (Stella-Achar-Oiro/netcat).

The Go source is shallowly embedded: each server method becomes a pure Lean
function on an explicit `Server` state.  Network writes are modelled as a list
of `Output` events (connection id paired with the exact bytes written).  The
single `sync.Mutex` guarding the registries is modelled by the `locked` field
of `Server`: a function that calls `s.mutex.Lock()` on entry returns `none`
(self-deadlock, the mutex is not reentrant) when the lock is already held, and
otherwise runs its body and returns with the lock released, exactly as the
lock/unlock (or deferred unlock) pairs in the source.  Go `map` iteration
order is unspecified; the embedding determinises it to insertion order, which
is irrelevant to every property proved below except as a fixed presentation
of the set of deliveries.  The activity-log file sink is ignored (it never
feeds back into control flow).
-/

namespace Netcat

/-- A connection handle (`net.Conn`); unique per accepted connection. -/
abbrev Conn := Nat

/-- A wall-clock instant, at the resolution Go's `time.Time` carries:
calendar fields down to seconds plus a sub-second nanosecond component. -/
structure Timestamp where
  year : Nat
  month : Nat
  day : Nat
  hour : Nat
  minute : Nat
  second : Nat
  nsec : Nat
  deriving DecidableEq, Repr

/-- Two-digit zero padding, as produced by Go layout components `01`, `02`,
`15`, `04`, `05`. -/
def pad2 (n : Nat) : String :=
  if n < 10 then "0" ++ toString n else toString n

/-- Four-digit zero padding, as produced by Go layout component `2006`. -/
def pad4 (n : Nat) : String :=
  if n < 10 then "000" ++ toString n
  else if n < 100 then "00" ++ toString n
  else if n < 1000 then "0" ++ toString n
  else toString n

/-- `msg.Timestamp.Format("2006-01-02 15:04:05")` (main.go:339): renders the
calendar fields at second resolution; the `nsec` component is not rendered. -/
def formatTimestamp (t : Timestamp) : String :=
  pad4 t.year ++ "-" ++ pad2 t.month ++ "-" ++ pad2 t.day ++ " " ++
    pad2 t.hour ++ ":" ++ pad2 t.minute ++ ":" ++ pad2 t.second

/-- `MessageTypeChat` (main.go:17, `iota` constants). -/
def MessageTypeChat : Nat := 0
/-- `MessageTypeSystem` (main.go:18). -/
def MessageTypeSystem : Nat := 1
/-- `MessageTypePrivate` (main.go:19). -/
def MessageTypePrivate : Nat := 2
/-- `MessageTypeError` (main.go:20). -/
def MessageTypeError : Nat := 3

/-- `Message` (main.go:32).  Field renamings forced by Lean keywords:
`Type → type`, `From → sender`, `To → recipient`. -/
structure Message where
  type : Nat
  sender : String
  recipient : String
  content : String
  timestamp : Timestamp
  deriving DecidableEq, Repr

/-- `Client` (main.go:24).  The `conn` handle doubles as the identity key. -/
structure Client where
  conn : Conn
  name : String
  joinTime : Timestamp
  room : String
  deriving DecidableEq, Repr

/-- `ChatRoom` (main.go:41).  The Go member map `map[net.Conn]*Client` is
modelled as the list of member connection ids; the `*Client` values are
pointers into the client registry, so name lookups go through the registry. -/
structure ChatRoom where
  name : String
  clients : List Conn
  messages : List Message
  deriving DecidableEq, Repr

/-- One write to one client socket: `conn.Write([]byte text)`. -/
structure Output where
  conn : Conn
  text : String
  deriving DecidableEq, Repr

/-- `formatMessage` (main.go:338-350): the Go `switch` on `msg.Type` with
cases private, system, error and a default (chat) case. -/
def formatMessage (msg : Message) : String :=
  let timestamp := formatTimestamp msg.timestamp
  if msg.type = MessageTypePrivate then
    "[" ++ timestamp ++ "][PM from " ++ msg.sender ++ "]: " ++ msg.content
  else if msg.type = MessageTypeSystem then
    "[" ++ timestamp ++ "] " ++ msg.content
  else if msg.type = MessageTypeError then
    "[" ++ timestamp ++ "][ERROR] " ++ msg.content
  else
    "[" ++ timestamp ++ "][" ++ msg.sender ++ "]: " ++ msg.content

/-! ### Association lists

Go's `map[K]V` registries are embedded as association lists in insertion
order.  `findA` is map lookup, `updA` overwrites the value stored at a key,
`delA` is `delete`, and `keysA` lists the keys. -/

/-- Lookup: the value stored at key `k`, if any. -/
def findA {α β : Type} [DecidableEq α] : List (α × β) → α → Option β
  | [], _ => none
  | e :: es, k => if e.1 = k then some e.2 else findA es k

/-- Overwrite the value at key `k` (no-op on absent keys). -/
def updA {α β : Type} [DecidableEq α] : List (α × β) → α → β → List (α × β)
  | [], _, _ => []
  | e :: es, k, v => if e.1 = k then (k, v) :: updA es k v else e :: updA es k v

/-- Remove key `k`. -/
def delA {α β : Type} [DecidableEq α] : List (α × β) → α → List (α × β)
  | [], _ => []
  | e :: es, k => if e.1 = k then delA es k else e :: delA es k

/-- The keys of an association list. -/
def keysA {α β : Type} : List (α × β) → List α :=
  List.map Prod.fst

instance {ε α : Type} [DecidableEq ε] [DecidableEq α] : DecidableEq (Except ε α) := by
  intro x y
  cases x <;> cases y
  case error.error a b =>
    by_cases h : a = b
    · exact isTrue (by rw [h])
    · exact isFalse (by intro hh; injection hh; contradiction)
  case ok.ok a b =>
    by_cases h : a = b
    · exact isTrue (by rw [h])
    · exact isFalse (by intro hh; injection hh; contradiction)
  case error.ok a b => exact isFalse (by intro hh; injection hh)
  case ok.error a b => exact isFalse (by intro hh; injection hh)

/-! ### String primitives

The Go string helpers are re-implemented by structural recursion over the
character list, so that every definition evaluates inside the kernel. -/

/-- `unicode.IsSpace` (the white-space set used by `strings.TrimSpace` and
`strings.Fields`; Latin-1 range). -/
def isSpaceGo (c : Char) : Bool :=
  c == ' ' || c == '\t' || c == '\n' || c == '\x0b' || c == '\x0c' ||
    c == '\r' || c == '\u0085' || c == '\u00A0'

/-- `strings.TrimSpace`. -/
def trimStr (s : String) : String :=
  ⟨((s.data.dropWhile isSpaceGo).reverse.dropWhile isSpaceGo).reverse⟩

/-- The UTF-8 encoded size of one character (what Go `len` counts per rune). -/
def utf8Size (c : Char) : Nat :=
  if c.toNat ≤ 0x7f then 1
  else if c.toNat ≤ 0x7ff then 2
  else if c.toNat ≤ 0xffff then 3
  else 4

/-- Go `len(s)`: the UTF-8 byte length. -/
def utf8Len (s : String) : Nat :=
  (s.data.map utf8Size).sum

/-- Tokenizer of `strings.Fields`: split on white space, drop empties. -/
def fieldsAux : List Char → List Char → List String
  | [], acc => if acc.isEmpty then [] else [⟨acc.reverse⟩]
  | c :: cs, acc =>
    if isSpaceGo c then
      if acc.isEmpty then fieldsAux cs [] else ⟨acc.reverse⟩ :: fieldsAux cs []
    else fieldsAux cs (c :: acc)

/-- `strings.Fields`. -/
def fieldsOf (s : String) : List String :=
  fieldsAux s.data []

/-- `strings.HasPrefix(s, "/")`. -/
def startsWithSlash (s : String) : Bool :=
  match s.data with
  | c :: _ => c == '/'
  | [] => false

/-- `strings.TrimPrefix(w, "/")`: strip one leading slash if present. -/
def stripSlash (w : String) : String :=
  match w.data with
  | c :: rest => if c == '/' then ⟨rest⟩ else w
  | [] => w

/-- ASCII lower-casing of one character. -/
def lowerChar (c : Char) : Char :=
  if 65 ≤ c.toNat && c.toNat ≤ 90 then Char.ofNat (c.toNat + 32) else c

/-- Case folding of `strings.EqualFold` (ASCII range, which is all the
claims exercise). -/
def lowerStr (s : String) : String :=
  ⟨s.data.map lowerChar⟩

/-- `strings.Join(xs, sep)`. -/
def joinSep (sep : String) : List String → String
  | [] => ""
  | [a] => a
  | a :: b :: as => a ++ sep ++ joinSep sep (b :: as)

/-! ### Server state -/

/-- `Server` (main.go:51).  `logFile`, `port` and the command table are
omitted: the log sink never feeds back into control flow, and the command
table built by `registerCommands` is a fixed map embedded below as `findCmd`.
`locked` models the state of `s.mutex` (a non-reentrant `sync.Mutex`). -/
structure Server where
  clients : List (Conn × Client)
  messages : List Message
  maxClients : Nat
  rooms : List (String × ChatRoom)
  locked : Bool
  deriving DecidableEq, Repr

/-- `s.clients[conn]` lookup. -/
def lookupClient (s : Server) (conn : Conn) : Option Client :=
  findA s.clients conn

/-- `s.rooms[name]` lookup. -/
def lookupRoom (s : Server) (name : String) : Option ChatRoom :=
  findA s.rooms name

/-- Overwrite the registry entry of an already-registered connection
(mutating through the shared `*Client` pointer in Go). -/
def setClient (s : Server) (conn : Conn) (cl : Client) : Server :=
  { s with clients := updA s.clients conn cl }

/-- `s.clients[conn] = client` (Go map assignment: overwrite or append). -/
def insertClient (s : Server) (conn : Conn) (cl : Client) : Server :=
  if (findA s.clients conn).isSome then setClient s conn cl
  else { s with clients := s.clients ++ [(conn, cl)] }

/-- `delete(s.clients, conn)`. -/
def removeClient (s : Server) (conn : Conn) : Server :=
  { s with clients := delA s.clients conn }

/-- Store back a mutated room object (in Go the mutation happens through the
shared `*ChatRoom` pointer). -/
def setRoom (s : Server) (name : String) (room : ChatRoom) : Server :=
  { s with rooms := updA s.rooms name room }

/-- `s.rooms[name] = &ChatRoom{...}` for a fresh name (createRoom checks
absence first). -/
def addRoom (s : Server) (name : String) (room : ChatRoom) : Server :=
  { s with rooms := s.rooms ++ [(name, room)] }

/-- `delete(room.clients, conn)` on a room's member map. -/
def removeMember (room : ChatRoom) (conn : Conn) : ChatRoom :=
  { room with clients := room.clients.filter (fun c => c ≠ conn) }

/-- `room.clients[conn] = c`: as a set of keys, insert-if-absent. -/
def addMember (room : ChatRoom) (conn : Conn) : ChatRoom :=
  { room with clients :=
      if conn ∈ room.clients then room.clients else room.clients ++ [conn] }

/-- `NewServer` (main.go:82-108): empty registries, capacity 10, the
default `general` room, lock free. -/
def newServer : Server :=
  { clients := []
    messages := []
    maxClients := 10
    rooms := [("general", { name := "general", clients := [], messages := [] })]
    locked := false }

/-! ### Name validation -/

/-- `strings.EqualFold` (case-insensitive equality; ASCII folding is all the
claims exercise). -/
def eqFold (a b : String) : Bool :=
  lowerStr a == lowerStr b

/-- `Server.isNameTaken` (main.go:352-359): some registered client whose name
matches case-insensitively. -/
def isNameTaken (s : Server) (name : String) : Bool :=
  s.clients.any (fun e => eqFold e.2.name name)

/-- `Server.validateName` (main.go:361-376).  Note the length checks use Go
`len`, i.e. the UTF-8 byte length of the trimmed candidate. -/
def validateName (s : Server) (name : String) : Except String Unit :=
  let name := trimStr name
  if name = "" then .error "name cannot be empty"
  else if utf8Len name < 2 then .error "name too short (minimum 2 characters)"
  else if utf8Len name > 20 then .error "name too long (maximum 20 characters)"
  else if isNameTaken s name then .error "name already taken"
  else .ok ()

/-! ### Broadcasting -/

/-- Result of running one command handler: the error it returned (if any),
the state it left behind, and the socket writes it performed.  A `none`
result in the surrounding `Option` means the handler never returned
(self-deadlock on the non-reentrant mutex). -/
structure HandlerOut where
  err : Option String
  s : Server
  out : List Output
  deriving DecidableEq, Repr

/-- `Client.sendMessage` (main.go:333-336): one formatted line plus `"\n"`
written to the client's connection. -/
def sendMessageTo (conn : Conn) (msg : Message) : Output :=
  ⟨conn, formatMessage msg ++ "\n"⟩

/-- `Server.broadcast` (main.go:209-221): under the lock, append to the
global history and write the line to every registered client except
`exclude` (`none` models the `nil` argument every caller passes). -/
def broadcast (s : Server) (msg : Message) (exclude : Option Conn) :
    Option (Server × List Output) :=
  if s.locked then none
  else some ({ s with messages := s.messages ++ [msg] },
    s.clients.filterMap fun e =>
      if some e.1 = exclude then none else some (sendMessageTo e.1 msg))

/-- `Server.broadcastToRoom` (main.go:223-232): no locking; append to the
room history and write to every member except `exclude`.  Returns the
mutated room object (a `*ChatRoom` in Go) and the writes. -/
def broadcastToRoom (room : ChatRoom) (msg : Message) (exclude : Option Conn) :
    ChatRoom × List Output :=
  ({ room with messages := room.messages ++ [msg] },
    room.clients.filterMap fun c =>
      if some c = exclude then none else some (sendMessageTo c msg))

/-! ### Room commands -/

/-- The success path of `Server.joinRoom` (main.go:261-283), entered with
the lock held, the caller `c` looked up and the target `room` found: remove
the caller from its current room, insert it into the target, update
`c.room`, replay the target's history to the caller, then broadcast the
join notice to the target room (appending it to the target's history).
The Go code mutates the target `*ChatRoom` object in place; when
`c.room = roomName` the removal therefore hits that same object, which the
`room1` split reproduces. -/
def joinRoomBody (s : Server) (conn : Conn) (c : Client) (room : ChatRoom)
    (roomName : String) (now : Timestamp) : HandlerOut :=
  let room1 := if c.room ≠ "" ∧ c.room = roomName then removeMember room conn else room
  let s1 :=
    if c.room ≠ "" ∧ c.room ≠ roomName then
      match lookupRoom s c.room with
      | some oldRoom => setRoom s c.room (removeMember oldRoom conn)
      | none => s
    else s
  let room2 := addMember room1 conn
  let s2 := setClient (setRoom s1 roomName room2) conn { c with room := roomName }
  let replay := room2.messages.map (sendMessageTo conn)
  let jmsg : Message := ⟨MessageTypeSystem, "", "", c.name ++ " joined the room", now⟩
  let rb := broadcastToRoom room2 jmsg none
  ⟨none, setRoom s2 roomName rb.1, replay ++ rb.2⟩

/-- The target room as `joinRoomBody` leaves it: the caller inserted into
the member set (`room1` is the target after the removal phase) and the
join notice appended to the history. -/
def joinUpdatedRoom (room1 : ChatRoom) (conn : Conn) (msg : Message) : ChatRoom :=
  { addMember room1 conn with messages := (addMember room1 conn).messages ++ [msg] }

/-- The server state `joinRoomBody` leaves behind, given the state `s1`
after the removal phase and the target room `room1` after that phase. -/
def joinFinalState (s1 : Server) (target : String) (room1 : ChatRoom) (conn : Conn)
    (c : Client) (msg : Message) : Server :=
  setRoom
    (setClient (setRoom s1 target (addMember room1 conn)) conn { c with room := target })
    target (joinUpdatedRoom room1 conn msg)

/-- `Server.joinRoom` (main.go:252-284): lock the mutex (self-deadlock when
it is already held — this is how `createRoom` wedges), look up the caller
and the target room, then run the success path `joinRoomBody`. -/
def joinRoom (s : Server) (conn : Conn) (roomName : String) (now : Timestamp) :
    Option HandlerOut :=
  if s.locked then none
  else
    match lookupClient s conn with
    | none => some ⟨none, s, []⟩  -- unreachable: every caller passes a registered client
    | some c =>
      match lookupRoom s roomName with
      | none => some ⟨some "room does not exist", s, []⟩
      | some room => some (joinRoomBody s conn c room roomName now)

/-- `Server.createRoom` (main.go:234-250).  Takes the lock (deferred unlock),
rejects an existing name, otherwise registers the empty room and tail-calls
`joinRoom` — which takes the same non-reentrant mutex again, so the success
path never returns (`none`). -/
def createRoom (s : Server) (conn : Conn) (roomName : String) (now : Timestamp) :
    Option HandlerOut :=
  if s.locked then none
  else if (lookupRoom s roomName).isSome then some ⟨some "room already exists", s, []⟩
  else
    joinRoom { addRoom s roomName { name := roomName, clients := [], messages := [] }
               with locked := true } conn roomName now

/-- `Server.listRooms` (main.go:286-300): under the lock, one line per room
with its member count. -/
def listRooms (s : Server) (conn : Conn) : Option HandlerOut :=
  if s.locked then none
  else
    let rooms := s.rooms.map fun e =>
      e.1 ++ " (" ++ toString e.2.clients.length ++ " users)"
    some ⟨none, s, [⟨conn, "Available rooms:\n" ++ joinSep "\n" rooms ++ "\n"⟩]⟩

/-- The linear scan of main.go:306-312: the first registered client whose
name equals `name` exactly (case-sensitive `==`). -/
def findByName (s : Server) (name : String) : Option Client :=
  (s.clients.find? fun e => e.2.name = name).map (·.2)

/-- `Server.sendPrivateMessage` (main.go:302-331): under the lock, find the
first registered client whose name equals `toName` exactly; write the
private-kind line to the target and then to the caller.  No history is
touched. -/
def sendPrivateMessage (s : Server) (conn : Conn) (toName content : String)
    (now : Timestamp) : Option HandlerOut :=
  if s.locked then none
  else
    match lookupClient s conn with
    | none => some ⟨none, s, []⟩  -- unreachable: caller is the session's registered client
    | some c =>
      match findByName s toName with
      | none => some ⟨some ("user " ++ toName ++ " not found"), s, []⟩
      | some tgt =>
        let msg : Message := ⟨MessageTypePrivate, c.name, tgt.name, content, now⟩
        some ⟨none, s, [sendMessageTo tgt.conn msg, sendMessageTo c.conn msg]⟩

/-! ### Command table -/

/-- The keys of the command map built by `registerCommands` (main.go:110-199). -/
inductive Cmd where
  | help | list | nick | join | create | rooms | msg | who
  deriving DecidableEq, Repr

/-- The command map lookup `s.commands[command]`: exact, case-sensitive
string match. -/
def findCmd : String → Option Cmd
  | "help" => some .help
  | "list" => some .list
  | "nick" => some .nick
  | "join" => some .join
  | "create" => some .create
  | "rooms" => some .rooms
  | "msg" => some .msg
  | "who" => some .who
  | _ => none

/-- The `/help` text (main.go:113-123), written verbatim to the caller. -/
def helpText : String :=
  "Available commands:\n" ++
  "/help           - Show this help\n" ++
  "/list           - List online users\n" ++
  "/nick <name>    - Change your nickname\n" ++
  "/msg <user> <message> - Send private message\n" ++
  "/join <room>    - Join a chat room\n" ++
  "/rooms          - List available rooms\n" ++
  "/create <room>  - Create a new room\n" ++
  "/quit           - Leave chat\n" ++
  "/who            - Show users in current room\n"

/-- The `list` handler (main.go:128-139). -/
def listUsers (s : Server) (conn : Conn) : Option HandlerOut :=
  if s.locked then none
  else
    let users := s.clients.map fun e => e.2.name ++ " (in " ++ e.2.room ++ ")"
    some ⟨none, s, [⟨conn, "Online users (" ++ toString users.length ++ "):\n" ++
      joinSep "\n" users ++ "\n"⟩]⟩

/-- The `nick` handler (main.go:141-157): validate, rename the caller's
`*Client`, broadcast the system notice globally. -/
def nickCmd (s : Server) (conn : Conn) (args : List String) (now : Timestamp) :
    Option HandlerOut :=
  match args with
  | [] => some ⟨some "usage: /nick <new_name>", s, []⟩
  | newName :: _ =>
    match lookupClient s conn with
    | none => some ⟨none, s, []⟩  -- unreachable
    | some c =>
      match validateName s newName with
      | .error e => some ⟨some e, s, []⟩
      | .ok _ =>
        let s1 := setClient s conn { c with name := newName }
        match broadcast s1 ⟨MessageTypeSystem, "", "",
            c.name ++ " changed name to " ++ newName, now⟩ none with
        | none => none
        | some r => some ⟨none, r.1, r.2⟩

/-- The `who` handler (main.go:184-197): member names of the caller's
current room.  Member names are read through the shared `*Client` pointers,
i.e. from the registry. -/
def whoCmd (s : Server) (conn : Conn) : Option HandlerOut :=
  match lookupClient s conn with
  | none => some ⟨none, s, []⟩  -- unreachable
  | some c =>
    if c.room = "" then some ⟨some "you are not in any room", s, []⟩
    else
      match lookupRoom s c.room with
      | none => none  -- Go dereferences a nil room here; unreachable from reachable states
      | some room =>
        let users := room.clients.filterMap fun cn => (lookupClient s cn).map (·.name)
        some ⟨none, s, [⟨conn, "Users in room " ++ c.room ++ " (" ++
          toString users.length ++ "):\n" ++ joinSep ", " users ++ "\n"⟩]⟩

/-- Run one registered command handler (the closures of main.go:110-199). -/
def runCmd : Cmd → Server → Conn → List String → Timestamp → Option HandlerOut
  | .help, s, conn, _, _ => some ⟨none, s, [⟨conn, helpText⟩]⟩
  | .list, s, conn, _, _ => listUsers s conn
  | .nick, s, conn, args, now => nickCmd s conn args now
  | .join, s, conn, args, now =>
    match args with
    | [] => some ⟨some "usage: /join <room>", s, []⟩
    | r :: _ => joinRoom s conn r now
  | .create, s, conn, args, now =>
    match args with
    | [] => some ⟨some "usage: /create <room>", s, []⟩
    | r :: _ => createRoom s conn r now
  | .rooms, s, conn, _, _ => listRooms s conn
  | .msg, s, conn, args, now =>
    match args with
    | t :: m :: rest => sendPrivateMessage s conn t (joinSep " " (m :: rest)) now
    | _ => some ⟨some "usage: /msg <user> <message>", s, []⟩
  | .who, s, conn, _, _ => whoCmd s conn

/-! ### Dispatch -/

/-- The error-kind reply `handleCommand` sends when a handler returns an
error (main.go:397-403) or the keyword is unknown (main.go:388-394). -/
def errOut (conn : Conn) (e : String) (now : Timestamp) : Output :=
  sendMessageTo conn ⟨MessageTypeError, "", "", e, now⟩

/-- Keyword dispatch: the map lookup plus unknown-keyword and
handler-error replies of `handleCommand` (main.go:387-404). -/
def dispatch (s : Server) (conn : Conn) (command : String) (args : List String)
    (now : Timestamp) : Option (Server × List Output) :=
  match findCmd command with
  | none => some (s, [errOut conn "Unknown command. Type /help for available commands." now])
  | some cmd =>
    match runCmd cmd s conn args now with
    | none => none
    | some r =>
      some (r.s, r.out ++ (match r.err with | some e => [errOut conn e now] | none => []))

/-- `Server.handleCommand` (main.go:378-405): a line is a command iff it
starts with `/`; keyword = first whitespace-delimited token minus the
slash; returns `false` (fall through to chat) only for non-`/` lines. -/
def handleCommand (s : Server) (conn : Conn) (message : String) (now : Timestamp) :
    Option (Bool × Server × List Output) :=
  if startsWithSlash message then
    match fieldsOf message with
    | [] => some (true, s, [])  -- dead branch: a "/"-prefixed line always yields a token
    | w :: args =>
      match dispatch s conn (stripSlash w) args now with
      | none => none
      | some r => some (true, r.1, r.2)
  else some (false, s, [])

/-! ### Connection sessions

`handleConnection` (main.go:407-495) interleaved with the other sessions.
Each externally visible action of a session is one event: successful
name negotiation (registration plus the implicit join of `general`), one
line read in the active loop, and the disconnect cleanup. -/

inductive SEvent where
  /-- main.go:436-448: after a name is accepted, build the `Client`,
  insert it into the registry under the lock, and `joinRoom` to `general`
  (whose error result is discarded). -/
  | register (conn : Conn) (name : String) (now : Timestamp)
  /-- main.go:451-477: one iteration of the read loop on a line `raw`. -/
  | line (conn : Conn) (raw : String) (now : Timestamp)
  /-- main.go:479-494: the cleanup run when the read loop ends. -/
  | disconnect (conn : Conn) (now : Timestamp)
  deriving DecidableEq, Repr

/-- The registration step of `handleConnection` (main.go:436-448). -/
def registerStep (s : Server) (conn : Conn) (name : String) (now : Timestamp) :
    Option (Server × List Output) :=
  let s1 := insertClient s conn ⟨conn, name, now, ""⟩
  match joinRoom s1 conn "general" now with
  | none => none
  | some r => some (r.s, r.out)

/-- One iteration of the active read loop (main.go:451-477): trim, skip
empty lines, try command dispatch, otherwise broadcast chat to the
caller's current room (silently dropped when the caller has no room). -/
def lineStep (s : Server) (conn : Conn) (raw : String) (now : Timestamp) :
    Option (Server × List Output) :=
  match lookupClient s conn with
  | none => some (s, [])  -- unreachable: the session registered its client before the loop
  | some client =>
    let message := trimStr raw
    if message = "" then some (s, [])
    else
      match handleCommand s conn message now with
      | none => none
      | some (true, s', out) => some (s', out)
      | some (false, _, _) =>
        if client.room = "" then some (s, [])
        else
          match lookupRoom s client.room with
          | none => none  -- Go would dereference a nil room; unreachable from reachable states
          | some room =>
            let msg : Message := ⟨MessageTypeChat, client.name, "", message, now⟩
            let rb := broadcastToRoom room msg none
            some (setRoom s client.room rb.1, rb.2)

/-- The disconnect cleanup (main.go:479-494): remove the client from the
registry and from its room under the lock, then broadcast the departure
notice globally. -/
def disconnectStep (s : Server) (conn : Conn) (now : Timestamp) :
    Option (Server × List Output) :=
  match lookupClient s conn with
  | none => some (s, [])  -- unreachable: cleanup runs once, for the session's registered client
  | some client =>
    let s1 := removeClient s conn
    let s2 :=
      if client.room ≠ "" then
        match lookupRoom s1 client.room with
        | some room => setRoom s1 client.room (removeMember room conn)
        | none => s1
      else s1
    match broadcast s2 ⟨MessageTypeSystem, "", "",
        client.name ++ " has left our chat...", now⟩ none with
    | none => none
    | some r => some r

/-- One interleaved session step. -/
def serverStep (s : Server) : SEvent → Option (Server × List Output)
  | .register conn name now => registerStep s conn name now
  | .line conn raw now => lineStep s conn raw now
  | .disconnect conn now => disconnectStep s conn now

/-- Run a sequence of session steps; `none` once any step wedges. -/
def runServer (s : Server) : List SEvent → Option Server
  | [] => some s
  | e :: es =>
    match serverStep s e with
    | none => none
    | some r => runServer r.1 es

/-- Well-formed traces: each `register` event uses a connection handle not
currently registered.  This is forced by the transport: `net.Conn` handles
are unique per accepted connection and `handleConnection` registers its
connection exactly once. -/
def wfRun (s : Server) : List SEvent → Bool
  | [] => true
  | e :: es =>
    (match e with
     | .register conn _ _ => (findA s.clients conn).isNone
     | _ => true) &&
    (match serverStep s e with
     | none => true
     | some r => wfRun r.1 es)

/-! ### Accept-loop capacity model

`Server.Start` (main.go:497-526) runs the accept loop: under the lock it
compares `len(s.clients)` against `maxClients` (10); a full registry makes
it write the rejection line and close the connection, otherwise it spawns
`handleConnection`.  The spawned session inserts into `s.clients` only
later, at name acceptance (main.go:443-445), with no further capacity
check.  The model keeps three disjoint books: `registered` (in
`s.clients`), `pending` (session spawned, name negotiation not finished),
`rejected` (closed at accept time). -/

/-- `maxClients` as set by `NewServer` (main.go:92). -/
def serverCapacity : Nat := 10

structure CapState where
  registered : List Conn
  pending : List Conn
  rejected : List Conn
  deriving DecidableEq, Repr

inductive CapEvent where
  /-- The accept loop handles one inbound connection (main.go:509-524):
  capacity check under the lock, then reject-and-close or spawn. -/
  | attempt (c : Conn)
  /-- A spawned session finishes name negotiation and registers
  (main.go:443-445); no capacity re-check happens here. -/
  | register (c : Conn)
  deriving DecidableEq, Repr

def capStep (st : CapState) : CapEvent → CapState
  | .attempt c =>
    if st.registered.length ≥ serverCapacity then
      { st with rejected := st.rejected ++ [c] }
    else
      { st with pending := st.pending ++ [c] }
  | .register c =>
    if c ∈ st.pending then
      { registered := st.registered ++ [c]
        pending := st.pending.filter (fun x => x ≠ c)
        rejected := st.rejected }
    else st

def capInit : CapState := ⟨[], [], []⟩

def capRun (evs : List CapEvent) : CapState :=
  evs.foldl capStep capInit

/-- Serialized accept histories: whenever the accept loop takes a new
connection, no previously accepted session is still negotiating its name
(so its registration already happened).  Under this discipline the
accept-time check is decisive. -/
def serializedFrom (st : CapState) : List CapEvent → Bool
  | [] => true
  | e :: es =>
    (match e with
     | .attempt _ => st.pending.isEmpty
     | .register _ => true) && serializedFrom (capStep st e) es

/-- A serialized history of eleven connection attempts: each session
registers before the next accept; the eleventh finds ten registered
clients and is rejected. -/
def serializedTrace : List CapEvent :=
  List.flatten ((List.range 11).map fun i => [CapEvent.attempt i, CapEvent.register i])

/-- The accept-loop state after `serializedTrace`: ten registered clients,
one rejected connection. -/
def fullCapState : CapState :=
  capRun serializedTrace

/-! ### Invariants -/

/-- Registry consistency of room membership: every member connection
stored in a room entry is a registered client whose `room` field names
exactly that room's key.  (In Go the rooms hold `*Client` pointers into
the registry, and `joinRoom` keeps `c.room` in sync with the member
maps.) -/
def ClientsRooms (s : Server) : Prop :=
  ∀ rn r, lookupRoom s rn = some r → ∀ cn ∈ r.clients,
    ∃ cl, lookupClient s cn = some cl ∧ cl.room = rn

/-- The server-state invariant backing room-membership exclusivity: room
keys are unique, no room is keyed by the empty string (none can be:
`strings.Fields` never yields an empty token and `NewServer` creates only
`general`), and room membership is registry-consistent. -/
def ServerInv (s : Server) : Prop :=
  (keysA s.rooms).Nodup ∧ "" ∉ keysA s.rooms ∧ ClientsRooms s

/-- A connection appears in the member set of at most one room. -/
def RoomExcl (s : Server) : Prop :=
  ∀ e1 ∈ s.rooms, ∀ e2 ∈ s.rooms, ∀ cn : Conn,
    cn ∈ e1.2.clients → cn ∈ e2.2.clients → e1 = e2

/-! ### Concrete fixtures used by witnesses and counterexamples -/

/-- A fixed instant. -/
def ts0 : Timestamp := ⟨2024, 5, 6, 7, 8, 9, 10⟩

/-- The server after Alice's session registers on connection 0. -/
def sAlice : Server :=
  (runServer newServer [SEvent.register 0 "Alice" ts0]).getD newServer

/-- The server after Alice (connection 0) and Bob (connection 1) register. -/
def sAB : Server :=
  (runServer newServer
    [SEvent.register 0 "Alice" ts0, SEvent.register 1 "Bob" ts0]).getD newServer

/-- A hand-built state with a second room: Alice (conn 0) is in `general`,
Bob (conn 1) is in `dev`, whose history holds one chat message. -/
def sTwoRooms : Server :=
  { clients := [(0, ⟨0, "Alice", ts0, "general"⟩), (1, ⟨1, "Bob", ts0, "dev"⟩)]
    messages := []
    maxClients := 10
    rooms := [("general", ⟨"general", [0], []⟩),
              ("dev", ⟨"dev", [1], [⟨MessageTypeChat, "Bob", "", "hi", ts0⟩]⟩)]
    locked := false }

/-- A reachable-run fixture for the exclusivity witness: Alice and Bob
register, Bob re-joins `general` and chats, Alice disconnects. -/
def c2Trace : List SEvent :=
  [SEvent.register 0 "Alice" ts0, SEvent.register 1 "Bob" ts0,
   SEvent.line 1 "/join general" ts0, SEvent.line 1 "hello" ts0,
   SEvent.disconnect 0 ts0]

/-- An interleaved accept-loop history: eleven connections are accepted
while the registry is still empty (each passes the capacity check), then
all eleven sessions finish name negotiation and register. -/
def overCapTrace : List CapEvent :=
  ((List.range 11).map CapEvent.attempt) ++ ((List.range 11).map CapEvent.register)

/-! ### Association-list lemmas -/

section AssocLemmas

variable {α β : Type} [DecidableEq α]

theorem findA_append_left {l l' : List (α × β)} {k : α} {v : β}
    (h : findA l k = some v) : findA (l ++ l') k = some v := by
  induction l with
  | nil => simp [findA] at h
  | cons e es ih =>
    by_cases he : e.1 = k
    · simpa [findA, he] using h
    · simp [findA, he] at h ⊢
      exact ih h

theorem findA_append_right {l l' : List (α × β)} {k : α}
    (h : findA l k = none) : findA (l ++ l') k = findA l' k := by
  induction l with
  | nil => simp
  | cons e es ih =>
    by_cases he : e.1 = k
    · simp [findA, he] at h
    · simp [findA, he] at h ⊢
      exact ih h

theorem findA_updA_self {l : List (α × β)} {k : α} {v w : β}
    (h : findA l k = some w) : findA (updA l k v) k = some v := by
  induction l with
  | nil => simp [findA] at h
  | cons e es ih =>
    by_cases he : e.1 = k
    · simp [findA, updA, he]
    · simp [findA, updA, he] at h ⊢
      exact ih h

theorem findA_updA_ne {l : List (α × β)} {k k' : α} {v : β}
    (h : k' ≠ k) : findA (updA l k v) k' = findA l k' := by
  induction l with
  | nil => simp [updA]
  | cons e es ih =>
    by_cases he : e.1 = k
    · subst he
      simp [findA, updA, Ne.symm h, ih]
    · by_cases he' : e.1 = k' <;> simp [findA, updA, he, he', ih, h]

theorem findA_delA_self {l : List (α × β)} {k : α} :
    findA (delA l k) k = none := by
  induction l with
  | nil => simp [delA, findA]
  | cons e es ih =>
    by_cases he : e.1 = k <;> simp [findA, delA, he, ih]

theorem findA_delA_ne {l : List (α × β)} {k k' : α}
    (h : k' ≠ k) : findA (delA l k) k' = findA l k' := by
  induction l with
  | nil => simp [delA]
  | cons e es ih =>
    by_cases he : e.1 = k
    · subst he
      simp [findA, delA, Ne.symm h, ih]
    · by_cases he' : e.1 = k' <;> simp [findA, delA, he, he', ih, h]

theorem mem_updA {l : List (α × β)} {k : α} {v : β} {e : α × β}
    (h : e ∈ updA l k v) : e = (k, v) ∨ (e ∈ l ∧ e.1 ≠ k) := by
  induction l with
  | nil => simp [updA] at h
  | cons e' es ih =>
    by_cases he : e'.1 = k
    · simp [updA, he] at h
      rcases h with h | h
      · exact Or.inl h
      · rcases ih h with h' | ⟨h1, h2⟩
        · exact Or.inl h'
        · exact Or.inr ⟨List.mem_cons_of_mem _ h1, h2⟩
    · simp [updA, he] at h
      rcases h with h | h
      · subst h
        exact Or.inr ⟨List.mem_cons_self _ _, he⟩
      · rcases ih h with h' | ⟨h1, h2⟩
        · exact Or.inl h'
        · exact Or.inr ⟨List.mem_cons_of_mem _ h1, h2⟩

theorem mem_delA {l : List (α × β)} {k : α} {e : α × β}
    (h : e ∈ delA l k) : e ∈ l ∧ e.1 ≠ k := by
  induction l with
  | nil => simp [delA] at h
  | cons e' es ih =>
    by_cases he : e'.1 = k
    · simp [delA, he] at h
      rcases ih h with ⟨h1, h2⟩
      exact ⟨List.mem_cons_of_mem _ h1, h2⟩
    · simp [delA, he] at h
      rcases h with h | h
      · subst h
        exact ⟨List.mem_cons_self _ _, he⟩
      · rcases ih h with ⟨h1, h2⟩
        exact ⟨List.mem_cons_of_mem _ h1, h2⟩

theorem findA_some_mem {l : List (α × β)} {k : α} {v : β}
    (h : findA l k = some v) : (k, v) ∈ l := by
  induction l with
  | nil => simp [findA] at h
  | cons e es ih =>
    by_cases he : e.1 = k
    · simp [findA, he] at h
      have : e = (k, v) := by
        cases e
        simp at he h
        simp [he, h]
      rw [← this]
      exact List.mem_cons_self _ _
    · simp [findA, he] at h
      exact List.mem_cons_of_mem _ (ih h)

theorem findA_isSome_of_mem {l : List (α × β)} {e : α × β}
    (h : e ∈ l) : (findA l e.1).isSome := by
  induction l with
  | nil => simp at h
  | cons e' es ih =>
    rcases List.mem_cons.mp h with h | h
    · subst h
      simp [findA]
    · by_cases he : e'.1 = e.1 <;> simp [findA, he, ih h]

theorem keysA_updA {l : List (α × β)} {k : α} {v : β} :
    keysA (updA l k v) = keysA l := by
  induction l with
  | nil => rfl
  | cons e es ih =>
    by_cases he : e.1 = k <;> simp [updA, keysA, he, ih] <;>
      simpa [keysA] using ih

theorem updA_updA {l : List (α × β)} {k : α} {v w : β} :
    updA (updA l k v) k w = updA l k w := by
  induction l with
  | nil => rfl
  | cons e es ih =>
    by_cases he : e.1 = k <;> simp [updA, he, ih]

theorem eq_of_mem_keys_nodup {l : List (α × β)} {e1 e2 : α × β}
    (hnd : (keysA l).Nodup) (h1 : e1 ∈ l) (h2 : e2 ∈ l) (hk : e1.1 = e2.1) :
    e1 = e2 := by
  induction l with
  | nil => simp at h1
  | cons e es ih =>
    have hnd' : e.1 ∉ keysA es ∧ (keysA es).Nodup := by
      simpa [keysA] using hnd
    rcases List.mem_cons.mp h1 with h1 | h1 <;>
      rcases List.mem_cons.mp h2 with h2 | h2
    · rw [h1, h2]
    · exfalso
      apply hnd'.1
      rw [← h1, hk]
      exact List.mem_map_of_mem Prod.fst h2
    · exfalso
      apply hnd'.1
      rw [← h2, ← hk]
      exact List.mem_map_of_mem Prod.fst h1
    · exact ih hnd'.2 h1 h2

end AssocLemmas

section AssocLemmas2

variable {α β : Type} [DecidableEq α]

theorem findA_none_iff {l : List (α × β)} {k : α} :
    findA l k = none ↔ k ∉ keysA l := by
  induction l with
  | nil => simp [findA, keysA]
  | cons e es ih =>
    by_cases he : e.1 = k
    · simp [findA, he, keysA]
    · have hne : ¬ k = e.1 := fun h => he h.symm
      simp [findA, he, keysA, ih, hne]

theorem findA_of_mem_nodup {l : List (α × β)} {e : α × β}
    (hnd : (keysA l).Nodup) (he : e ∈ l) : findA l e.1 = some e.2 := by
  induction l with
  | nil => simp at he
  | cons e' es ih =>
    have hnd' : e'.1 ∉ keysA es ∧ (keysA es).Nodup := by
      simpa [keysA] using hnd
    rcases List.mem_cons.mp he with he | he
    · subst he
      simp [findA]
    · by_cases h : e'.1 = e.1
      · exfalso
        apply hnd'.1
        rw [h]
        exact List.mem_map_of_mem Prod.fst he
      · simp [findA, h]
        exact ih hnd'.2 he

end AssocLemmas2

/-! ### Room and registry helper lemmas -/

theorem filterMap_some_map {α β : Type} (f : α → β) (l : List α) :
    l.filterMap (fun x => some (f x)) = l.map f := by
  induction l with
  | nil => rfl
  | cons a l ih => simp [List.filterMap_cons, ih]

theorem broadcastToRoom_none (room : ChatRoom) (msg : Message) :
    broadcastToRoom room msg none =
      ({ room with messages := room.messages ++ [msg] },
       room.clients.map (fun cn => sendMessageTo cn msg)) := by
  simp [broadcastToRoom, filterMap_some_map]

theorem mem_removeMember {r : ChatRoom} {conn x : Conn} :
    x ∈ (removeMember r conn).clients ↔ (x ∈ r.clients ∧ x ≠ conn) := by
  simp [removeMember]

theorem mem_addMember_self (r : ChatRoom) (conn : Conn) :
    conn ∈ (addMember r conn).clients := by
  by_cases h : conn ∈ r.clients <;> simp [addMember, h]

theorem mem_addMember {r : ChatRoom} {conn x : Conn} :
    x ∈ (addMember r conn).clients ↔ (x ∈ r.clients ∨ x = conn) := by
  by_cases h : conn ∈ r.clients
  · simp [addMember, h]
    intro hx
    rw [hx]
    exact h
  · simp [addMember, h]

theorem rooms_setRoom (s : Server) (n : String) (r : ChatRoom) :
    (setRoom s n r).rooms = updA s.rooms n r := rfl

theorem clients_setRoom (s : Server) (n : String) (r : ChatRoom) :
    (setRoom s n r).clients = s.clients := rfl

theorem rooms_setClient (s : Server) (conn : Conn) (cl : Client) :
    (setClient s conn cl).rooms = s.rooms := rfl

theorem clients_setClient (s : Server) (conn : Conn) (cl : Client) :
    (setClient s conn cl).clients = updA s.clients conn cl := rfl

theorem rooms_joinFinalState (s1 : Server) (target : String) (room1 : ChatRoom)
    (conn : Conn) (c : Client) (msg : Message) :
    (joinFinalState s1 target room1 conn c msg).rooms =
      updA s1.rooms target (joinUpdatedRoom room1 conn msg) := by
  simp [joinFinalState, rooms_setRoom, rooms_setClient, updA_updA]

theorem clients_joinFinalState (s1 : Server) (target : String) (room1 : ChatRoom)
    (conn : Conn) (c : Client) (msg : Message) :
    (joinFinalState s1 target room1 conn c msg).clients =
      updA s1.clients conn { c with room := target } := rfl

theorem joinFinalState_facts (s s1 : Server) (target : String) (room1 : ChatRoom)
    (conn : Conn) (c : Client) (msg : Message) (w : ChatRoom)
    (hcl : s1.clients = s.clients) (hc : lookupClient s conn = some c)
    (hw : findA s1.rooms target = some w) :
    lookupRoom (joinFinalState s1 target room1 conn c msg) target =
      some (joinUpdatedRoom room1 conn msg) ∧
    lookupClient (joinFinalState s1 target room1 conn c msg) conn =
      some { c with room := target } ∧
    (∀ x, x ≠ conn → lookupClient (joinFinalState s1 target room1 conn c msg) x =
      lookupClient s x) ∧
    (∀ rn, rn ≠ target → lookupRoom (joinFinalState s1 target room1 conn c msg) rn =
      findA s1.rooms rn) ∧
    keysA (joinFinalState s1 target room1 conn c msg).rooms = keysA s1.rooms := by
  refine ⟨?_, ?_, ?_, ?_, ?_⟩
  · show findA (joinFinalState s1 target room1 conn c msg).rooms target = _
    rw [rooms_joinFinalState]
    exact findA_updA_self hw
  · show findA (joinFinalState s1 target room1 conn c msg).clients conn = _
    rw [clients_joinFinalState, hcl]
    exact findA_updA_self hc
  · intro x hx
    show findA (joinFinalState s1 target room1 conn c msg).clients x = _
    rw [clients_joinFinalState, hcl]
    exact findA_updA_ne hx
  · intro rn hrn
    show findA (joinFinalState s1 target room1 conn c msg).rooms rn = _
    rw [rooms_joinFinalState]
    exact findA_updA_ne hrn
  · rw [rooms_joinFinalState]
    exact keysA_updA

/-- Full characterisation of the `joinRoom` success path: the produced
output is the target room's history replayed to the caller (in order)
followed by the join notice delivered to the target room's new member set;
the caller moves into the target room, the join notice is appended to the
target history, the old room (when distinct and existing) loses the
caller, and nothing else changes. -/
theorem joinRoomBody_spec (s : Server) (conn : Conn) (c : Client) (room : ChatRoom)
    (target : String) (now : Timestamp)
    (hr : lookupRoom s target = some room) (hc : lookupClient s conn = some c) :
    ∃ s' room',
      joinRoomBody s conn c room target now =
        ⟨none, s', room.messages.map (sendMessageTo conn) ++
          room'.clients.map (fun cn => sendMessageTo cn
            ⟨MessageTypeSystem, "", "", c.name ++ " joined the room", now⟩)⟩ ∧
      lookupRoom s' target = some room' ∧
      conn ∈ room'.clients ∧
      (∀ x, x ∈ room'.clients ↔ (x ∈ room.clients ∨ x = conn)) ∧
      room'.messages = room.messages ++
        [⟨MessageTypeSystem, "", "", c.name ++ " joined the room", now⟩] ∧
      lookupClient s' conn = some { c with room := target } ∧
      (∀ x, x ≠ conn → lookupClient s' x = lookupClient s x) ∧
      (c.room ≠ "" → c.room ≠ target → ∀ oldRoom, lookupRoom s c.room = some oldRoom →
        lookupRoom s' c.room = some (removeMember oldRoom conn)) ∧
      (∀ rn, rn ≠ target → rn ≠ c.room → lookupRoom s' rn = lookupRoom s rn) ∧
      keysA s'.rooms = keysA s.rooms := by
  by_cases hct : c.room = target
  · by_cases hce : c.room = ""
    · -- the caller has no current room (and target = c.room = "")
      have hbody : joinRoomBody s conn c room target now =
          ⟨none, joinFinalState s target room conn c
              ⟨MessageTypeSystem, "", "", c.name ++ " joined the room", now⟩,
            room.messages.map (sendMessageTo conn) ++
              (joinUpdatedRoom room conn
                ⟨MessageTypeSystem, "", "", c.name ++ " joined the room", now⟩).clients.map
                (fun cn => sendMessageTo cn
                  ⟨MessageTypeSystem, "", "", c.name ++ " joined the room", now⟩)⟩ := by
        simp only [joinRoomBody]
        rw [if_neg (fun (h : c.room ≠ "" ∧ c.room = target) => h.1 hce),
          if_neg (fun (h : c.room ≠ "" ∧ c.room ≠ target) => h.1 hce), broadcastToRoom_none]
        rfl
      obtain ⟨f1, f2, f3, f4, f5⟩ :=
        joinFinalState_facts s s target room conn c
          ⟨MessageTypeSystem, "", "", c.name ++ " joined the room", now⟩ room rfl hc hr
      refine ⟨_, _, hbody, f1, mem_addMember_self room conn,
        fun x => mem_addMember, rfl, f2, f3, ?_, ?_, f5⟩
      · intro h1 _ _ _
        exact absurd hce h1
      · intro rn hrt _
        exact f4 rn hrt
    · -- re-joining the room the caller is already in
      have hbody : joinRoomBody s conn c room target now =
          ⟨none, joinFinalState s target (removeMember room conn) conn c
              ⟨MessageTypeSystem, "", "", c.name ++ " joined the room", now⟩,
            room.messages.map (sendMessageTo conn) ++
              (joinUpdatedRoom (removeMember room conn) conn
                ⟨MessageTypeSystem, "", "", c.name ++ " joined the room", now⟩).clients.map
                (fun cn => sendMessageTo cn
                  ⟨MessageTypeSystem, "", "", c.name ++ " joined the room", now⟩)⟩ := by
        simp only [joinRoomBody]
        rw [if_pos (show c.room ≠ "" ∧ c.room = target from ⟨hce, hct⟩),
          if_neg (fun (h : c.room ≠ "" ∧ c.room ≠ target) => h.2 hct), broadcastToRoom_none]
        rfl
      obtain ⟨f1, f2, f3, f4, f5⟩ :=
        joinFinalState_facts s s target (removeMember room conn) conn c
          ⟨MessageTypeSystem, "", "", c.name ++ " joined the room", now⟩ room rfl hc hr
      refine ⟨_, _, hbody, f1, mem_addMember_self _ conn, ?_, rfl, f2, f3, ?_, ?_, f5⟩
      · intro x
        rw [show ((joinUpdatedRoom (removeMember room conn) conn
            ⟨MessageTypeSystem, "", "", c.name ++ " joined the room", now⟩).clients) =
            (addMember (removeMember room conn) conn).clients from rfl]
        by_cases hx : x = conn
        · simp [mem_addMember, hx]
        · simp [mem_addMember, mem_removeMember, hx]
      · intro _ h2 _ _
        exact absurd hct h2
      · intro rn hrt _
        exact f4 rn hrt
  · by_cases hce : c.room = ""
    · -- no current room, joining a different room
      have hbody : joinRoomBody s conn c room target now =
          ⟨none, joinFinalState s target room conn c
              ⟨MessageTypeSystem, "", "", c.name ++ " joined the room", now⟩,
            room.messages.map (sendMessageTo conn) ++
              (joinUpdatedRoom room conn
                ⟨MessageTypeSystem, "", "", c.name ++ " joined the room", now⟩).clients.map
                (fun cn => sendMessageTo cn
                  ⟨MessageTypeSystem, "", "", c.name ++ " joined the room", now⟩)⟩ := by
        simp only [joinRoomBody]
        rw [if_neg (fun (h : c.room ≠ "" ∧ c.room = target) => h.1 hce),
          if_neg (fun (h : c.room ≠ "" ∧ c.room ≠ target) => h.1 hce), broadcastToRoom_none]
        rfl
      obtain ⟨f1, f2, f3, f4, f5⟩ :=
        joinFinalState_facts s s target room conn c
          ⟨MessageTypeSystem, "", "", c.name ++ " joined the room", now⟩ room rfl hc hr
      refine ⟨_, _, hbody, f1, mem_addMember_self room conn,
        fun x => mem_addMember, rfl, f2, f3, ?_, ?_, f5⟩
      · intro h1 _ _ _
        exact absurd hce h1
      · intro rn hrt _
        exact f4 rn hrt
    · rcases hold : lookupRoom s c.room with _ | oldRoom
      · -- current room name no longer resolves (unreachable in practice)
        have hbody : joinRoomBody s conn c room target now =
            ⟨none, joinFinalState s target room conn c
                ⟨MessageTypeSystem, "", "", c.name ++ " joined the room", now⟩,
              room.messages.map (sendMessageTo conn) ++
                (joinUpdatedRoom room conn
                  ⟨MessageTypeSystem, "", "", c.name ++ " joined the room", now⟩).clients.map
                  (fun cn => sendMessageTo cn
                    ⟨MessageTypeSystem, "", "", c.name ++ " joined the room", now⟩)⟩ := by
          simp only [joinRoomBody]
          rw [if_neg (fun (h : c.room ≠ "" ∧ c.room = target) => hct h.2),
            if_pos (show c.room ≠ "" ∧ c.room ≠ target from ⟨hce, hct⟩), hold,
            broadcastToRoom_none]
          rfl
        obtain ⟨f1, f2, f3, f4, f5⟩ :=
          joinFinalState_facts s s target room conn c
            ⟨MessageTypeSystem, "", "", c.name ++ " joined the room", now⟩ room rfl hc hr
        refine ⟨_, _, hbody, f1, mem_addMember_self room conn,
          fun x => mem_addMember, rfl, f2, f3, ?_, ?_, f5⟩
        · intro _ _ oldRoom h
          simp [hold] at h
        · intro rn hrt _
          exact f4 rn hrt
      · -- moving between two distinct existing rooms
        have hbody : joinRoomBody s conn c room target now =
            ⟨none, joinFinalState (setRoom s c.room (removeMember oldRoom conn))
                target room conn c
                ⟨MessageTypeSystem, "", "", c.name ++ " joined the room", now⟩,
              room.messages.map (sendMessageTo conn) ++
                (joinUpdatedRoom room conn
                  ⟨MessageTypeSystem, "", "", c.name ++ " joined the room", now⟩).clients.map
                  (fun cn => sendMessageTo cn
                    ⟨MessageTypeSystem, "", "", c.name ++ " joined the room", now⟩)⟩ := by
          simp only [joinRoomBody]
          rw [if_neg (fun (h : c.room ≠ "" ∧ c.room = target) => hct h.2),
            if_pos (show c.room ≠ "" ∧ c.room ≠ target from ⟨hce, hct⟩), hold,
            broadcastToRoom_none]
          rfl
        have hw : findA (setRoom s c.room (removeMember oldRoom conn)).rooms target =
            some room := by
          rw [rooms_setRoom]
          rw [findA_updA_ne (fun h => hct h.symm)]
          exact hr
        obtain ⟨f1, f2, f3, f4, f5⟩ :=
          joinFinalState_facts s (setRoom s c.room (removeMember oldRoom conn)) target
            room conn c ⟨MessageTypeSystem, "", "", c.name ++ " joined the room", now⟩
            room rfl hc hw
        refine ⟨_, _, hbody, f1, mem_addMember_self room conn,
          fun x => mem_addMember, rfl, f2, f3, ?_, ?_,
          f5.trans (by rw [rooms_setRoom]; exact keysA_updA)⟩
        · intro _ _ oldRoom0 h
          simp [hold] at h
          subst h
          rw [f4 c.room hct, rooms_setRoom]
          exact findA_updA_self hold
        · intro rn hrt hrc
          rw [f4 rn hrt, rooms_setRoom]
          exact findA_updA_ne hrc

/-! ### C9: message formatting -/

/-- **C9.** `formatMessage` is a pure deterministic function of
(kind, sender, content, timestamp): being a Lean function it returns equal
lines on equal inputs by construction, and the conjuncts below show that
each message kind renders by its canonical template — chat
`[<ts>][<sender>]: <content>`, system `[<ts>] <content>`, private
`[<ts>][PM from <sender>]: <content>`, error `[<ts>][ERROR] <content>` —
with the timestamp rendered as `YYYY-MM-DD HH:MM:SS` (second resolution:
the sub-second field is ignored). -/
theorem formatMessage_pure_canonical :
    (∀ (t : Timestamp) (sender recipient content : String),
      formatMessage ⟨MessageTypeChat, sender, recipient, content, t⟩ =
        "[" ++ formatTimestamp t ++ "][" ++ sender ++ "]: " ++ content) ∧
    (∀ (t : Timestamp) (sender recipient content : String),
      formatMessage ⟨MessageTypeSystem, sender, recipient, content, t⟩ =
        "[" ++ formatTimestamp t ++ "] " ++ content) ∧
    (∀ (t : Timestamp) (sender recipient content : String),
      formatMessage ⟨MessageTypePrivate, sender, recipient, content, t⟩ =
        "[" ++ formatTimestamp t ++ "][PM from " ++ sender ++ "]: " ++ content) ∧
    (∀ (t : Timestamp) (sender recipient content : String),
      formatMessage ⟨MessageTypeError, sender, recipient, content, t⟩ =
        "[" ++ formatTimestamp t ++ "][ERROR] " ++ content) ∧
    (∀ y mo d h mi se n1 n2 : Nat,
      formatTimestamp ⟨y, mo, d, h, mi, se, n1⟩ =
        formatTimestamp ⟨y, mo, d, h, mi, se, n2⟩) ∧
    (∀ t : Timestamp, formatTimestamp t =
      pad4 t.year ++ "-" ++ pad2 t.month ++ "-" ++ pad2 t.day ++ " " ++
        pad2 t.hour ++ ":" ++ pad2 t.minute ++ ":" ++ pad2 t.second) := by
  refine ⟨?_, ?_, ?_, ?_, ?_, ?_⟩ <;> intros <;> rfl

/-! ### C3: name validation -/

/-- **C3 (counterexample).** The claim requires `Ok` iff the trimmed
candidate has between 2 and 20 *characters*; but `validateName` measures
Go `len`, i.e. UTF-8 bytes.  The one-character candidate `"é"` (two bytes)
is accepted by the code against a fresh registry, while the claim, read
over characters, requires rejection (`length 1 < 2`). -/
theorem validateName_counts_bytes_not_chars :
    validateName newServer "é" = .ok () ∧ (trimStr "é").length = 1 :=
  ⟨by decide, by decide⟩

/-- **C3 (amended).** `validateName` first trims surrounding whitespace and
returns `Ok` iff the trimmed candidate is non-empty, its UTF-8 byte length
(Go `len`) is between 2 and 20 inclusive, and it does not collide
case-insensitively with a registered name; each rejection reports the
specific violated rule, checked in the order empty, too short, too long,
taken. -/
theorem validateName_spec (s : Server) (name : String) :
    (validateName s name = .ok () ↔
      (trimStr name ≠ "" ∧ 2 ≤ utf8Len (trimStr name) ∧ utf8Len (trimStr name) ≤ 20 ∧
        isNameTaken s (trimStr name) = false)) ∧
    (trimStr name = "" → validateName s name = .error "name cannot be empty") ∧
    (trimStr name ≠ "" → utf8Len (trimStr name) < 2 →
      validateName s name = .error "name too short (minimum 2 characters)") ∧
    (20 < utf8Len (trimStr name) →
      validateName s name = .error "name too long (maximum 20 characters)") ∧
    (trimStr name ≠ "" → 2 ≤ utf8Len (trimStr name) → utf8Len (trimStr name) ≤ 20 →
      isNameTaken s (trimStr name) = true →
      validateName s name = .error "name already taken") := by
  have heq : validateName s name =
      (if trimStr name = "" then .error "name cannot be empty"
       else if utf8Len (trimStr name) < 2 then .error "name too short (minimum 2 characters)"
       else if 20 < utf8Len (trimStr name) then .error "name too long (maximum 20 characters)"
       else if isNameTaken s (trimStr name) then .error "name already taken"
       else .ok ()) := rfl
  refine ⟨⟨?_, ?_⟩, ?_, ?_, ?_, ?_⟩
  · intro h
    rw [heq] at h
    split_ifs at h with h1 h2 h3 h4
    exact ⟨h1, by omega, by omega, by simpa using h4⟩
  · rintro ⟨h1, h2, h3, h4⟩
    rw [heq]
    simp [h1, h4, Nat.not_lt.mpr h2, Nat.not_lt.mpr h3]
  · intro h1
    rw [heq]
    simp [h1]
  · intro h1 h2
    rw [heq]
    simp [h1, h2]
  · intro h3
    have h0 : utf8Len ("" : String) = 0 := rfl
    have h1 : trimStr name ≠ "" := by
      intro hh
      rw [hh, h0] at h3
      omega
    have h2 : ¬ utf8Len (trimStr name) < 2 := by omega
    rw [heq]
    simp [h1, h2, h3]
  · intro h1 h2 h3 h4
    rw [heq]
    simp [h1, h4, Nat.not_lt.mpr h2, Nat.not_lt.mpr h3]

/-- Witness for `validateName_spec` at concrete inputs. -/
theorem validateName_spec_witness :
    validateName newServer "x" = .error "name too short (minimum 2 characters)" ∧
    validateName newServer "   " = .error "name cannot be empty" :=
  ⟨(validateName_spec newServer "x").2.2.1 (by decide) (by decide),
   (validateName_spec newServer "   ").2.1 (by decide)⟩

/-! ### C5: room creation -/

/-- **C5.** The failure half of the claim holds: `/create` of an existing
room name reports `room already exists` and leaves the state unchanged.
The success half is a code bug: `createRoom` registers the room and then,
still holding the non-reentrant `s.mutex` (its unlock is deferred),
tail-calls `joinRoom`, which begins with `s.mutex.Lock()` — so the success
path self-deadlocks (`none`) and the caller is never joined into the new
room, contradicting the claim (and spec Scenario D). -/
theorem createRoom_success_deadlocks :
    lookupRoom sAlice "test" = none ∧
    (lookupClient sAlice 0).isSome = true ∧
    sAlice.locked = false ∧
    createRoom sAlice 0 "test" ts0 = none ∧
    createRoom sAlice 0 "general" ts0 = some ⟨some "room already exists", sAlice, []⟩ :=
  ⟨by decide, by decide, by decide, by decide, by decide⟩

/-! ### C7: command dispatch -/

/-- **C7.** For every input line, `handleCommand` treats the line as a
command exactly when it starts with `/`: a non-`/` line returns
`handled = false` with no state change and no output; a `/` line can only
return `handled = true` (it never falls through to chat broadcast); and
when the first whitespace-delimited token with the slash stripped is not a
registered keyword (the lookup is an exact, case-sensitive string match),
the issuing client alone receives the unknown-command error and the result
is still `handled = true` with the state unchanged. -/
theorem handleCommand_dispatch_iff (s : Server) (conn : Conn) (line : String)
    (now : Timestamp) :
    (startsWithSlash line = false → handleCommand s conn line now = some (false, s, [])) ∧
    (startsWithSlash line = true →
      ∀ b s' out, handleCommand s conn line now = some (b, s', out) → b = true) ∧
    (∀ w args, startsWithSlash line = true → fieldsOf line = w :: args →
      findCmd (stripSlash w) = none →
      handleCommand s conn line now =
        some (true, s,
          [errOut conn "Unknown command. Type /help for available commands." now])) := by
  refine ⟨?_, ?_, ?_⟩
  · intro h
    simp [handleCommand, h]
  · intro h b s' out hres
    simp only [handleCommand, h, if_true] at hres
    rcases hfe : fieldsOf line with _ | ⟨w, args⟩ <;> simp [hfe] at hres
    · exact hres.1
    · rcases hd : dispatch s conn (stripSlash w) args now with _ | r <;>
        simp [hd] at hres
      exact hres.1
  · intro w args h hfe hcmd
    simp [handleCommand, h, hfe, dispatch, hcmd]

/-- Witness for `handleCommand_dispatch_iff`: a chat line falls through
untouched; unknown keywords (including a wrongly-cased `/LIST`) are
answered with the unknown-command error and still count as handled. -/
theorem handleCommand_dispatch_iff_witness :
    handleCommand newServer 0 "hello" ts0 = some (false, newServer, []) ∧
    handleCommand newServer 0 "/frob x" ts0 =
      some (true, newServer,
        [errOut 0 "Unknown command. Type /help for available commands." ts0]) ∧
    handleCommand newServer 0 "/LIST" ts0 =
      some (true, newServer,
        [errOut 0 "Unknown command. Type /help for available commands." ts0]) :=
  ⟨(handleCommand_dispatch_iff newServer 0 "hello" ts0).1 (by decide),
   (handleCommand_dispatch_iff newServer 0 "/frob x" ts0).2.2 "/frob" ["x"]
     (by decide) (by decide) (by decide),
   (handleCommand_dispatch_iff newServer 0 "/LIST" ts0).2.2 "/LIST" []
     (by decide) (by decide) (by decide)⟩

/-! ### C8: private messages -/

/-- **C8.** `/msg target text`: when no registered client's name equals the
target exactly (first conjunct: the linear scan fails precisely when every
registered name differs), the command fails with `user <target> not found`
and the state is unchanged; otherwise exactly two writes happen — the
private-kind formatted line to the target's connection, then the same line
to the caller's connection — the state (including all histories) is
unchanged, and no other connection receives anything. -/
theorem sendPrivateMessage_spec (s : Server) (conn : Conn) (c : Client)
    (target content : String) (now : Timestamp)
    (hl : s.locked = false) (hc : lookupClient s conn = some c) :
    (findByName s target = none ↔ ∀ e ∈ s.clients, e.2.name ≠ target) ∧
    (findByName s target = none →
      sendPrivateMessage s conn target content now =
        some ⟨some ("user " ++ target ++ " not found"), s, []⟩) ∧
    (∀ tgt, findByName s target = some tgt →
      sendPrivateMessage s conn target content now =
        some ⟨none, s,
          [sendMessageTo tgt.conn ⟨MessageTypePrivate, c.name, tgt.name, content, now⟩,
           sendMessageTo c.conn ⟨MessageTypePrivate, c.name, tgt.name, content, now⟩]⟩) := by
  refine ⟨?_, ?_, ?_⟩
  · simp [findByName, List.find?_eq_none]
  · intro h
    simp [sendPrivateMessage, hl, hc, h]
  · intro tgt h
    simp [sendPrivateMessage, hl, hc, h]

/-- Witness for `sendPrivateMessage_spec`: with Alice (conn 0) and Bob
(conn 1) registered, `/msg Bob hi` from Alice writes the PM line to Bob and
to Alice only; `/msg Carol hi` fails with the not-found error. -/
theorem sendPrivateMessage_spec_witness :
    sendPrivateMessage sAB 0 "Bob" "hi" ts0 =
      some ⟨none, sAB,
        [sendMessageTo 1 ⟨MessageTypePrivate, "Alice", "Bob", "hi", ts0⟩,
         sendMessageTo 0 ⟨MessageTypePrivate, "Alice", "Bob", "hi", ts0⟩]⟩ ∧
    sendPrivateMessage sAB 0 "Carol" "hi" ts0 =
      some ⟨some "user Carol not found", sAB, []⟩ :=
  ⟨(sendPrivateMessage_spec sAB 0 ⟨0, "Alice", ts0, "general"⟩ "Bob" "hi" ts0
      (by decide) (by decide)).2.2 ⟨1, "Bob", ts0, "general"⟩ (by decide),
   (sendPrivateMessage_spec sAB 0 ⟨0, "Alice", ts0, "general"⟩ "Carol" "hi" ts0
      (by decide) (by decide)).2.1 (by decide)⟩

/-! ### C4 and C10: joining rooms -/

/-- **C4.** `/join` on an existing room: the caller is removed from its
current room's member set (conjunct 8: the old room, when distinct and
existing, keeps exactly its other members), inserted into the target's
member set, its `room` field is updated, the output stream is exactly the
target's N history messages delivered to the caller in their original
append order followed — only after all N — by the `<name> joined the room`
system notice delivered to precisely the target room's current members,
the joiner included; the notice is appended to the target history. -/
theorem joinRoom_move_and_replay (s : Server) (conn : Conn) (c : Client)
    (room : ChatRoom) (target : String) (now : Timestamp)
    (hl : s.locked = false) (hc : lookupClient s conn = some c)
    (hr : lookupRoom s target = some room) :
    ∃ s' room',
      joinRoom s conn target now =
        some ⟨none, s', room.messages.map (sendMessageTo conn) ++
          room'.clients.map (fun cn => sendMessageTo cn
            ⟨MessageTypeSystem, "", "", c.name ++ " joined the room", now⟩)⟩ ∧
      lookupRoom s' target = some room' ∧
      conn ∈ room'.clients ∧
      (∀ x, x ∈ room'.clients ↔ (x ∈ room.clients ∨ x = conn)) ∧
      room'.messages = room.messages ++
        [⟨MessageTypeSystem, "", "", c.name ++ " joined the room", now⟩] ∧
      lookupClient s' conn = some { c with room := target } ∧
      (∀ x, x ≠ conn → lookupClient s' x = lookupClient s x) ∧
      (c.room ≠ "" → c.room ≠ target → ∀ oldRoom, lookupRoom s c.room = some oldRoom →
        lookupRoom s' c.room = some (removeMember oldRoom conn)) ∧
      (∀ rn, rn ≠ target → rn ≠ c.room → lookupRoom s' rn = lookupRoom s rn) := by
  have hj : joinRoom s conn target now = some (joinRoomBody s conn c room target now) := by
    simp [joinRoom, hl, hc, hr]
  obtain ⟨s', room', heq, h2, h3, h4, h5, h6, h7, h8, h9, -⟩ :=
    joinRoomBody_spec s conn c room target now hr hc
  exact ⟨s', room', by rw [hj, heq], h2, h3, h4, h5, h6, h7, h8, h9⟩

/-- Witness for `joinRoom_move_and_replay`: Alice (conn 0, in `general`)
joins the existing room `dev`. -/
theorem joinRoom_move_and_replay_witness :
    (joinRoom sTwoRooms 0 "dev" ts0).isSome = true := by
  obtain ⟨s', room', heq, -⟩ :=
    joinRoom_move_and_replay sTwoRooms 0 ⟨0, "Alice", ts0, "general"⟩
      ⟨"dev", [1], [⟨MessageTypeChat, "Bob", "", "hi", ts0⟩]⟩ "dev" ts0
      (by decide) (by decide) (by decide)
  rw [heq]
  rfl

/-- **C10.** `/join R` when the caller is already in room `R` succeeds
rather than being rejected or skipped: the result is `some` with no error,
the member set of `R` is unchanged as a set (the caller is removed and
re-inserted), the caller's registry entry is unchanged, `R`'s entire
history is replayed to the caller a second time, and a fresh
`<name> joined the room` notice is broadcast to `R`'s members and appended
to `R`'s history. -/
theorem joinRoom_rejoin_same_room (s : Server) (conn : Conn) (c : Client)
    (room : ChatRoom) (target : String) (now : Timestamp)
    (hl : s.locked = false) (hc : lookupClient s conn = some c)
    (hrm : c.room = target) (hr : lookupRoom s target = some room)
    (hmem : conn ∈ room.clients) :
    ∃ s' room',
      joinRoom s conn target now =
        some ⟨none, s', room.messages.map (sendMessageTo conn) ++
          room'.clients.map (fun cn => sendMessageTo cn
            ⟨MessageTypeSystem, "", "", c.name ++ " joined the room", now⟩)⟩ ∧
      lookupRoom s' target = some room' ∧
      conn ∈ room'.clients ∧
      (∀ x, x ∈ room'.clients ↔ x ∈ room.clients) ∧
      room'.messages = room.messages ++
        [⟨MessageTypeSystem, "", "", c.name ++ " joined the room", now⟩] ∧
      lookupClient s' conn = some c := by
  have hj : joinRoom s conn target now = some (joinRoomBody s conn c room target now) := by
    simp [joinRoom, hl, hc, hr]
  obtain ⟨s', room', heq, h2, h3, h4, h5, h6, h7, h8, h9, -⟩ :=
    joinRoomBody_spec s conn c room target now hr hc
  refine ⟨s', room', by rw [hj, heq], h2, h3, ?_, h5, ?_⟩
  · intro x
    rw [h4 x]
    constructor
    · rintro (hx | rfl)
      · exact hx
      · exact hmem
    · exact Or.inl
  · rw [h6]
    have : ({ c with room := target } : Client) = c := by
      cases c
      cases hrm
      rfl
    rw [this]

/-- Witness for `joinRoom_rejoin_same_room`: Alice (conn 0) re-joins
`general`, the room she is already in, on the reachable state `sAlice`. -/
theorem joinRoom_rejoin_same_room_witness :
    (joinRoom sAlice 0 "general" ts0).isSome = true := by
  obtain ⟨s', room', heq, -⟩ :=
    joinRoom_rejoin_same_room sAlice 0 ⟨0, "Alice", ts0, "general"⟩
      ⟨"general", [0], [⟨MessageTypeSystem, "", "", "Alice joined the room", ts0⟩]⟩
      "general" ts0 (by decide) (by decide) (by decide) (by decide) (by decide)
  rw [heq]
  rfl

/-! ### C1: capacity -/

theorem length_filter_ne_lt {l : List Conn} {cn : Conn} (h : cn ∈ l) :
    (l.filter (fun x => !decide (x = cn))).length < l.length := by
  induction l with
  | nil => simp at h
  | cons a l ih =>
    by_cases ha : a = cn
    · subst ha
      simp [List.filter_cons]
      exact Nat.lt_succ_of_le (List.length_filter_le _ _)
    · rcases List.mem_cons.mp h with h' | h'
      · exact absurd h'.symm ha
      · simp [List.filter_cons, ha]
        exact ih h'

/-- **C1 (counterexample).** The claim's bound fails on the interleaved
accept history `overCapTrace`: eleven connections are accepted while the
registry is empty — each passes the accept-time check — and all eleven
sessions then finish name negotiation and register (main.go:443-445
inserts with no re-check), leaving eleven entries in `Server.clients`,
more than the capacity constant 10. -/
theorem capacity_exceeded_by_interleaving :
    serverCapacity < (capRun overCapTrace).registered.length := by
  decide

/-- **C1 (amended).** The capacity check at accept time guarantees: (a) for
serialized histories, in which every accepted connection completes its
registration before the next accept, the registry never exceeds the
capacity 10; and (b) an attempt arriving when at least 10 clients hold
slots is rejected on the spot — it is recorded closed and is never added
to the pending or registered books.  (The unrestricted bound claimed is
refuted by `overCapTrace`.) -/
theorem capacity_check_spec :
    (∀ evs : List CapEvent, serializedFrom capInit evs = true →
      (capRun evs).registered.length ≤ serverCapacity) ∧
    (∀ (st : CapState) (cn : Conn), serverCapacity ≤ st.registered.length →
      capStep st (.attempt cn) = { st with rejected := st.rejected ++ [cn] }) := by
  constructor
  · have main : ∀ (evs : List CapEvent) (st : CapState),
        st.registered.length + st.pending.length ≤ serverCapacity →
        serializedFrom st evs = true →
        (evs.foldl capStep st).registered.length ≤ serverCapacity := by
      intro evs
      induction evs with
      | nil =>
        intro st hsum _
        simp only [List.foldl]
        omega
      | cons e es ih =>
        intro st hsum hser
        simp only [serializedFrom, Bool.and_eq_true] at hser
        obtain ⟨h1, h2⟩ := hser
        cases e with
        | attempt cn =>
          by_cases hfull : st.registered.length ≥ serverCapacity
          · refine ih _ ?_ ?_
            · simpa [capStep, hfull] using hsum
            · simpa [capStep, hfull] using h2
          · have hp : st.pending.length = 0 := by
              cases hpe : st.pending with
              | nil => rfl
              | cons a l =>
                rw [hpe] at h1
                simp [List.isEmpty] at h1
            refine ih _ ?_ ?_
            · simp [capStep, hfull]
              omega
            · simpa [capStep, hfull] using h2
        | register cn =>
          by_cases hmem : cn ∈ st.pending
          · have hlt := length_filter_ne_lt hmem
            refine ih _ ?_ ?_
            · simp [capStep, hmem, decide_not]
              omega
            · simpa [capStep, hmem] using h2
          · refine ih _ ?_ ?_
            · simpa [capStep, hmem] using hsum
            · simpa [capStep, hmem] using h2
    intro evs h
    exact main evs capInit (by decide) h
  · intro st cn h
    simp only [capStep]
    rw [if_pos h]

/-- Witness for `capacity_check_spec`: the serialized eleven-attempt
history stays within capacity, and an attempt against a full registry is
turned away unregistered. -/
theorem capacity_check_spec_witness :
    serializedFrom capInit serializedTrace = true ∧
    (capRun serializedTrace).registered.length ≤ serverCapacity ∧
    serverCapacity ≤ fullCapState.registered.length ∧
    capStep fullCapState (.attempt 99) =
      { fullCapState with rejected := fullCapState.rejected ++ [99] } :=
  ⟨by decide, capacity_check_spec.1 serializedTrace (by decide), by decide,
   capacity_check_spec.2 fullCapState 99 (by decide)⟩

/-! ### C6: validation errors -/

/-- **C6.** Every command invocation that yields a ValidationError —
argument-count underflow (`/nick`, `/join`, `/create`, `/msg` with too few
arguments), invalid or taken name on `/nick`, nonexistent room on `/join`,
already-existing room on `/create`, target not found on `/msg`, caller in
no room on `/who` — returns the server state unchanged (client registry,
room registry, room histories, global history, caller's name and room all
sit inside `s`) and writes exactly one error-kind line, to the originating
client only.  `dispatch` returns `some`, so the session's read loop
continues. -/
theorem dispatch_validation_errors (s : Server) (conn : Conn) (c : Client)
    (now : Timestamp) (hl : s.locked = false) (hc : lookupClient s conn = some c) :
    (dispatch s conn "nick" [] now = some (s, [errOut conn "usage: /nick <new_name>" now])) ∧
    (dispatch s conn "join" [] now = some (s, [errOut conn "usage: /join <room>" now])) ∧
    (dispatch s conn "create" [] now = some (s, [errOut conn "usage: /create <room>" now])) ∧
    (dispatch s conn "msg" [] now = some (s, [errOut conn "usage: /msg <user> <message>" now])) ∧
    (∀ a, dispatch s conn "msg" [a] now =
      some (s, [errOut conn "usage: /msg <user> <message>" now])) ∧
    (∀ nm rest e, validateName s nm = .error e →
      dispatch s conn "nick" (nm :: rest) now = some (s, [errOut conn e now])) ∧
    (∀ r rest, lookupRoom s r = none →
      dispatch s conn "join" (r :: rest) now =
        some (s, [errOut conn "room does not exist" now])) ∧
    (∀ r rest room, lookupRoom s r = some room →
      dispatch s conn "create" (r :: rest) now =
        some (s, [errOut conn "room already exists" now])) ∧
    (∀ t m rest, findByName s t = none →
      dispatch s conn "msg" (t :: m :: rest) now =
        some (s, [errOut conn ("user " ++ t ++ " not found") now])) ∧
    (c.room = "" →
      dispatch s conn "who" [] now = some (s, [errOut conn "you are not in any room" now])) := by
  refine ⟨?_, ?_, ?_, ?_, ?_, ?_, ?_, ?_, ?_, ?_⟩
  · simp [dispatch, findCmd, runCmd, nickCmd]
  · simp [dispatch, findCmd, runCmd]
  · simp [dispatch, findCmd, runCmd]
  · simp [dispatch, findCmd, runCmd]
  · intro a
    simp [dispatch, findCmd, runCmd]
  · intro nm rest e hv
    simp [dispatch, findCmd, runCmd, nickCmd, hc, hv]
  · intro r rest hr
    simp [dispatch, findCmd, runCmd, joinRoom, hl, hc, hr]
  · intro r rest room hr
    simp [dispatch, findCmd, runCmd, createRoom, hl, hr]
  · intro t m rest ht
    simp [dispatch, findCmd, runCmd, sendPrivateMessage, hl, hc, ht]
  · intro hroom
    simp [dispatch, findCmd, runCmd, whoCmd, hc, hroom]

/-- Witness for `dispatch_validation_errors`: Alice (conn 0, in `general`)
issues `/nick` with no argument and `/join nowhere`; both leave the state
untouched and answer her alone. -/
theorem dispatch_validation_errors_witness :
    dispatch sAlice 0 "nick" [] ts0 =
      some (sAlice, [errOut 0 "usage: /nick <new_name>" ts0]) ∧
    dispatch sAlice 0 "join" ["nowhere"] ts0 =
      some (sAlice, [errOut 0 "room does not exist" ts0]) :=
  ⟨(dispatch_validation_errors sAlice 0 ⟨0, "Alice", ts0, "general"⟩ ts0
      (by decide) (by decide)).1,
   (dispatch_validation_errors sAlice 0 ⟨0, "Alice", ts0, "general"⟩ ts0
      (by decide) (by decide)).2.2.2.2.2.2.1 "nowhere" [] (by decide)⟩

/-! ### C2: room-membership exclusivity

The invariant `ServerInv` is established at `NewServer` and preserved by
every session step; exclusivity follows from it. -/

theorem serverInv_joinRoomBody {s : Server} {conn : Conn} {c : Client} {room : ChatRoom}
    {target : String} {now : Timestamp}
    (hr : lookupRoom s target = some room) (hc : lookupClient s conn = some c)
    (hinv : ServerInv s) :
    ServerInv (joinRoomBody s conn c room target now).s := by
  obtain ⟨hnd, hne, hcr⟩ := hinv
  obtain ⟨s', room', heq, h2, h3, h4, h5, h6, h7, h8, h9, h10⟩ :=
    joinRoomBody_spec s conn c room target now hr hc
  rw [heq]
  show ServerInv s'
  refine ⟨h10 ▸ hnd, h10 ▸ hne, ?_⟩
  intro rn r' hfr cn hcn
  by_cases hrt : rn = target
  · subst hrt
    have hr' : r' = room' := by
      rw [h2] at hfr
      exact (Option.some.inj hfr).symm
    subst hr'
    rcases (h4 cn).mp hcn with hcn' | rfl
    · by_cases hcc : cn = conn
      · subst hcc
        exact ⟨_, h6, rfl⟩
      · obtain ⟨cl, hcl, hclr⟩ := hcr rn room hr cn hcn'
        exact ⟨cl, by rw [h7 cn hcc]; exact hcl, hclr⟩
    · exact ⟨_, h6, rfl⟩
  · by_cases hrc : rn = c.room
    · subst hrc
      by_cases hcek : c.room = ""
      · exfalso
        apply hne
        rw [← h10]
        exact hcek ▸ List.mem_map_of_mem Prod.fst (findA_some_mem hfr)
      · rcases hold : lookupRoom s c.room with _ | oldRoom
        · exfalso
          have hout : c.room ∉ keysA s.rooms := findA_none_iff.mp hold
          apply hout
          rw [← h10]
          exact List.mem_map_of_mem Prod.fst (findA_some_mem hfr)
        · have h8' := h8 hcek hrt oldRoom hold
          rw [h8'] at hfr
          have hr' : r' = removeMember oldRoom conn := (Option.some.inj hfr).symm
          subst hr'
          obtain ⟨hmem, hnc⟩ := mem_removeMember.mp hcn
          obtain ⟨cl, hcl, hclr⟩ := hcr c.room oldRoom hold cn hmem
          exact ⟨cl, by rw [h7 cn hnc]; exact hcl, hclr⟩
    · rw [h9 rn hrt hrc] at hfr
      obtain ⟨cl, hcl, hclr⟩ := hcr rn r' hfr cn hcn
      by_cases hcc : cn = conn
      · subst hcc
        have hclc : cl = c := by
          rw [hc] at hcl
          exact (Option.some.inj hcl).symm
        exfalso
        apply hrc
        rw [← hclr, hclc]
      · exact ⟨cl, by rw [h7 cn hcc]; exact hcl, hclr⟩

theorem serverInv_messages {s : Server} {m : List Message}
    (h : ServerInv s) : ServerInv { s with messages := m } :=
  h

theorem serverInv_setClient_sameRoom {s : Server} {conn : Conn} {c cl' : Client}
    (hc : lookupClient s conn = some c) (hroom : cl'.room = c.room)
    (hinv : ServerInv s) : ServerInv (setClient s conn cl') := by
  obtain ⟨hnd, hne, hcr⟩ := hinv
  refine ⟨hnd, hne, ?_⟩
  intro rn r hfr cn hcn
  obtain ⟨cl0, hcl0, hclr⟩ := hcr rn r hfr cn hcn
  by_cases hcc : cn = conn
  · subst hcc
    have hc0 : cl0 = c := by
      rw [hc] at hcl0
      exact (Option.some.inj hcl0).symm
    refine ⟨cl', ?_, ?_⟩
    · show findA (updA s.clients cn cl') cn = some cl'
      exact findA_updA_self hc
    · rw [hroom, ← hc0]
      exact hclr
  · refine ⟨cl0, ?_, hclr⟩
    show findA (updA s.clients conn cl') cn = some cl0
    rw [findA_updA_ne hcc]
    exact hcl0

theorem serverInv_setRoom_sameClients {s : Server} {rn : String} {room r' : ChatRoom}
    (hr : lookupRoom s rn = some room) (hcl : r'.clients = room.clients)
    (hinv : ServerInv s) : ServerInv (setRoom s rn r') := by
  obtain ⟨hnd, hne, hcr⟩ := hinv
  refine ⟨?_, ?_, ?_⟩
  · show (keysA (updA s.rooms rn r')).Nodup
    rw [keysA_updA]
    exact hnd
  · show "" ∉ keysA (updA s.rooms rn r')
    rw [keysA_updA]
    exact hne
  · intro rn2 r2 hfr cn hcn
    have hfr0 : findA (updA s.rooms rn r') rn2 = some r2 := hfr
    by_cases h2 : rn2 = rn
    · subst h2
      rw [findA_updA_self hr] at hfr0
      have : r2 = r' := (Option.some.inj hfr0).symm
      subst this
      rw [hcl] at hcn
      exact hcr rn2 room hr cn hcn
    · rw [findA_updA_ne h2] at hfr0
      exact hcr rn2 r2 hfr0 cn hcn

theorem serverInv_joinRoom {s : Server} {conn : Conn} {target : String}
    {now : Timestamp} {r : HandlerOut}
    (h : joinRoom s conn target now = some r) (hinv : ServerInv s) : ServerInv r.s := by
  unfold joinRoom at h
  by_cases hl : s.locked = true
  · rw [if_pos hl] at h
    exact Option.noConfusion h
  · rw [if_neg hl] at h
    rcases hc : lookupClient s conn with _ | c
    · rw [hc] at h
      have : r = ⟨none, s, []⟩ := (Option.some.inj h).symm
      rw [this]
      exact hinv
    · rw [hc] at h
      rcases hr : lookupRoom s target with _ | room
      · rw [hr] at h
        have : r = ⟨some "room does not exist", s, []⟩ := (Option.some.inj h).symm
        rw [this]
        exact hinv
      · rw [hr] at h
        have : r = joinRoomBody s conn c room target now := (Option.some.inj h).symm
        rw [this]
        exact serverInv_joinRoomBody hr hc hinv

theorem serverInv_sendPrivateMessage {s : Server} {conn : Conn} {tn content : String}
    {now : Timestamp} {r : HandlerOut}
    (h : sendPrivateMessage s conn tn content now = some r) (hinv : ServerInv s) :
    ServerInv r.s := by
  unfold sendPrivateMessage at h
  by_cases hl : s.locked = true
  · rw [if_pos hl] at h
    exact Option.noConfusion h
  · rw [if_neg hl] at h
    rcases hc : lookupClient s conn with _ | c <;> rw [hc] at h
    · rw [← (Option.some.inj h)]
      exact hinv
    · rcases ht : findByName s tn with _ | tgt <;> rw [ht] at h <;>
        rw [← (Option.some.inj h)] <;> exact hinv

theorem serverInv_whoCmd {s : Server} {conn : Conn} {r : HandlerOut}
    (h : whoCmd s conn = some r) (hinv : ServerInv s) : ServerInv r.s := by
  unfold whoCmd at h
  rcases hc : lookupClient s conn with _ | c <;> simp only [hc] at h
  · rw [← (Option.some.inj h)]
    exact hinv
  · by_cases he : c.room = ""
    · rw [if_pos he] at h
      rw [← (Option.some.inj h)]
      exact hinv
    · rw [if_neg he] at h
      rcases hr : lookupRoom s c.room with _ | room <;> rw [hr] at h
      · exact Option.noConfusion h
      · rw [← (Option.some.inj h)]
        exact hinv

theorem serverInv_nickCmd {s : Server} {conn : Conn} {args : List String}
    {now : Timestamp} {r : HandlerOut}
    (h : nickCmd s conn args now = some r) (hinv : ServerInv s) : ServerInv r.s := by
  unfold nickCmd at h
  rcases args with _ | ⟨newName, rest⟩
  · rw [← (Option.some.inj h)]
    exact hinv
  · rcases hc : lookupClient s conn with _ | c <;> simp only [hc] at h
    · rw [← (Option.some.inj h)]
      exact hinv
    · rcases hv : validateName s newName with e | u <;> simp only [hv] at h
      · rw [← (Option.some.inj h)]
        exact hinv
      · rcases hb : broadcast (setClient s conn { c with name := newName })
            ⟨MessageTypeSystem, "", "", c.name ++ " changed name to " ++ newName, now⟩
            none with _ | rb <;> simp only [hb] at h
        · exact Option.noConfusion h
        · rw [← (Option.some.inj h)]
          unfold broadcast at hb
          by_cases hl : (setClient s conn { c with name := newName }).locked = true
          · rw [if_pos hl] at hb
            exact Option.noConfusion hb
          · rw [if_neg hl] at hb
            have hinv1 : ServerInv (setClient s conn { c with name := newName }) :=
              serverInv_setClient_sameRoom hc rfl hinv
            rw [← (Option.some.inj hb)]
            exact serverInv_messages hinv1

theorem serverInv_createRoom {s : Server} {conn : Conn} {target : String}
    {now : Timestamp} {r : HandlerOut}
    (h : createRoom s conn target now = some r) (hinv : ServerInv s) : ServerInv r.s := by
  unfold createRoom at h
  by_cases hl : s.locked = true
  · rw [if_pos hl] at h
    exact Option.noConfusion h
  · rw [if_neg hl] at h
    by_cases he : (lookupRoom s target).isSome
    · rw [if_pos he] at h
      rw [← (Option.some.inj h)]
      exact hinv
    · rw [if_neg he] at h
      rw [show joinRoom { addRoom s target { name := target, clients := [], messages := [] }
          with locked := true } conn target now = none from rfl] at h
      exact Option.noConfusion h

theorem serverInv_runCmd {cmd : Cmd} {s : Server} {conn : Conn} {args : List String}
    {now : Timestamp} {r : HandlerOut}
    (h : runCmd cmd s conn args now = some r) (hinv : ServerInv s) : ServerInv r.s := by
  cases cmd with
  | help =>
    rw [← (Option.some.inj h)]
    exact hinv
  | list =>
    simp only [runCmd] at h
    unfold listUsers at h
    by_cases hl : s.locked = true
    · rw [if_pos hl] at h
      exact Option.noConfusion h
    · rw [if_neg hl] at h
      rw [← (Option.some.inj h)]
      exact hinv
  | nick => exact serverInv_nickCmd h hinv
  | join =>
    simp only [runCmd] at h
    rcases args with _ | ⟨tgt, rest⟩
    · rw [← (Option.some.inj h)]
      exact hinv
    · exact serverInv_joinRoom h hinv
  | create =>
    simp only [runCmd] at h
    rcases args with _ | ⟨tgt, rest⟩
    · rw [← (Option.some.inj h)]
      exact hinv
    · exact serverInv_createRoom h hinv
  | rooms =>
    simp only [runCmd] at h
    unfold listRooms at h
    by_cases hl : s.locked = true
    · rw [if_pos hl] at h
      exact Option.noConfusion h
    · rw [if_neg hl] at h
      rw [← (Option.some.inj h)]
      exact hinv
  | msg =>
    simp only [runCmd] at h
    rcases args with _ | ⟨tn, _ | ⟨m, rest⟩⟩
    · rw [← (Option.some.inj h)]
      exact hinv
    · rw [← (Option.some.inj h)]
      exact hinv
    · exact serverInv_sendPrivateMessage h hinv
  | who => exact serverInv_whoCmd h hinv

theorem serverInv_dispatch {s : Server} {conn : Conn} {command : String}
    {args : List String} {now : Timestamp} {r : Server × List Output}
    (h : dispatch s conn command args now = some r) (hinv : ServerInv s) :
    ServerInv r.1 := by
  unfold dispatch at h
  rcases hf : findCmd command with _ | cmd <;> simp only [hf] at h
  · rw [← (Option.some.inj h)]
    exact hinv
  · rcases hrc : runCmd cmd s conn args now with _ | r0 <;> simp only [hrc] at h
    · exact Option.noConfusion h
    · rw [← (Option.some.inj h)]
      exact serverInv_runCmd hrc hinv

theorem serverInv_handleCommand {s : Server} {conn : Conn} {message : String}
    {now : Timestamp} {b : Bool} {s' : Server} {out : List Output}
    (h : handleCommand s conn message now = some (b, s', out)) (hinv : ServerInv s) :
    ServerInv s' := by
  unfold handleCommand at h
  by_cases hp : startsWithSlash message = true
  · rw [if_pos hp] at h
    rcases hf : fieldsOf message with _ | ⟨w, args⟩ <;> simp only [hf] at h
    · have hp2 := Option.some.inj h
      have hs' : s = s' := congrArg (fun p => p.2.1) hp2
      rw [← hs']
      exact hinv
    · rcases hd : dispatch s conn (stripSlash w) args now with _ | r0 <;>
        simp only [hd] at h
      · exact Option.noConfusion h
      · have := Option.some.inj h
        have hs' : r0.1 = s' := (congrArg (fun p => p.2.1) this)
        rw [← hs']
        exact serverInv_dispatch hd hinv
  · rw [if_neg hp] at h
    have := Option.some.inj h
    have hs' : s = s' := congrArg (fun p => p.2.1) this
    rw [← hs']
    exact hinv

theorem serverInv_lineStep {s : Server} {conn : Conn} {raw : String}
    {now : Timestamp} {r : Server × List Output}
    (h : lineStep s conn raw now = some r) (hinv : ServerInv s) : ServerInv r.1 := by
  unfold lineStep at h
  rcases hc : lookupClient s conn with _ | client <;> simp only [hc] at h
  · rw [← (Option.some.inj h)]
    exact hinv
  · by_cases hemp : trimStr raw = ""
    · rw [if_pos hemp] at h
      rw [← (Option.some.inj h)]
      exact hinv
    · rw [if_neg hemp] at h
      rcases hh : handleCommand s conn (trimStr raw) now with _ | bso <;>
        simp only [hh] at h
      · exact Option.noConfusion h
      · rcases bso with ⟨b, s0, out0⟩
        cases b with
        | true =>
          simp only at h
          rw [← (Option.some.inj h)]
          exact serverInv_handleCommand hh hinv
        | false =>
          simp only at h
          by_cases hre : client.room = ""
          · rw [if_pos hre] at h
            rw [← (Option.some.inj h)]
            exact hinv
          · rw [if_neg hre] at h
            rcases hr : lookupRoom s client.room with _ | room <;> simp only [hr] at h
            · exact Option.noConfusion h
            · rw [broadcastToRoom_none] at h
              rw [← (Option.some.inj h)]
              exact serverInv_setRoom_sameClients hr rfl hinv

theorem serverInv_registerStep {s : Server} {conn : Conn} {name : String}
    {now : Timestamp} {r : Server × List Output}
    (hfresh : lookupClient s conn = none)
    (h : registerStep s conn name now = some r) (hinv : ServerInv s) : ServerInv r.1 := by
  unfold registerStep at h
  have hins : insertClient s conn ⟨conn, name, now, ""⟩ =
      { s with clients := s.clients ++ [(conn, ⟨conn, name, now, ""⟩)] } := by
    unfold insertClient
    rw [show findA s.clients conn = none from hfresh]
    rfl
  rw [hins] at h
  have hinv1 : ServerInv { s with clients := s.clients ++ [(conn, ⟨conn, name, now, ""⟩)] } := by
    obtain ⟨hnd, hne, hcr⟩ := hinv
    refine ⟨hnd, hne, ?_⟩
    intro rn r0 hfr cn hcn
    obtain ⟨cl, hcl, hclr⟩ := hcr rn r0 hfr cn hcn
    exact ⟨cl, findA_append_left hcl, hclr⟩
  rcases hj : joinRoom { s with clients := s.clients ++ [(conn, ⟨conn, name, now, ""⟩)] }
      conn "general" now with _ | r0 <;> simp only [hj] at h
  · exact Option.noConfusion h
  · rw [← (Option.some.inj h)]
    exact serverInv_joinRoom hj hinv1

theorem serverInv_afterBroadcast {s2 : Server} {msg : Message} {oc : Option Conn}
    {rb : Server × List Output}
    (hb : broadcast s2 msg oc = some rb) (hinv : ServerInv s2) : ServerInv rb.1 := by
  unfold broadcast at hb
  by_cases hl : s2.locked = true
  · rw [if_pos hl] at hb
    exact Option.noConfusion hb
  · rw [if_neg hl] at hb
    rw [← (Option.some.inj hb)]
    exact serverInv_messages hinv

theorem serverInv_disconnectStep {s : Server} {conn : Conn}
    {now : Timestamp} {r : Server × List Output}
    (h : disconnectStep s conn now = some r) (hinv : ServerInv s) : ServerInv r.1 := by
  unfold disconnectStep at h
  rcases hc : lookupClient s conn with _ | client <;> simp only [hc] at h
  · rw [← (Option.some.inj h)]
    exact hinv
  · obtain ⟨hnd, hne, hcr⟩ := hinv
    by_cases hre : client.room = ""
    · rw [if_neg (fun hh => hh hre)] at h
      have hinv2 : ServerInv (removeClient s conn) := by
        refine ⟨hnd, hne, ?_⟩
        intro rn r0 hfr cn hcn
        have hfr0 : findA s.rooms rn = some r0 := hfr
        obtain ⟨cl, hcl, hclr⟩ := hcr rn r0 hfr0 cn hcn
        by_cases hcc : cn = conn
        · exfalso
          have hclc : cl = client := by
            rw [hcc, hc] at hcl
            exact (Option.some.inj hcl).symm
          apply hne
          rw [show ("" : String) = rn from by rw [← hclr, hclc, hre]]
          exact List.mem_map_of_mem Prod.fst (findA_some_mem hfr0)
        · refine ⟨cl, ?_, hclr⟩
          show findA (delA s.clients conn) cn = some cl
          rw [findA_delA_ne hcc]
          exact hcl
      rcases hb : broadcast (removeClient s conn)
          ⟨MessageTypeSystem, "", "", client.name ++ " has left our chat...", now⟩
          none with _ | rb <;> simp only [hb] at h
      · exact Option.noConfusion h
      · rw [← (Option.some.inj h)]
        exact serverInv_afterBroadcast hb hinv2
    · rw [if_pos hre] at h
      rcases hold : lookupRoom (removeClient s conn) client.room with _ | room <;>
        simp only [hold] at h
      · have hinv2 : ServerInv (removeClient s conn) := by
          refine ⟨hnd, hne, ?_⟩
          intro rn r0 hfr cn hcn
          have hfr0 : findA s.rooms rn = some r0 := hfr
          obtain ⟨cl, hcl, hclr⟩ := hcr rn r0 hfr0 cn hcn
          by_cases hcc : cn = conn
          · exfalso
            have hclc : cl = client := by
              rw [hcc, hc] at hcl
              exact (Option.some.inj hcl).symm
            have hcr0 : lookupRoom s client.room = some r0 := by
              rw [show client.room = rn from by rw [← hclr, hclc]]
              exact hfr0
            have hnone : lookupRoom s client.room = none := hold
            rw [hnone] at hcr0
            exact Option.noConfusion hcr0
          · refine ⟨cl, ?_, hclr⟩
            show findA (delA s.clients conn) cn = some cl
            rw [findA_delA_ne hcc]
            exact hcl
        rcases hb : broadcast (removeClient s conn)
            ⟨MessageTypeSystem, "", "", client.name ++ " has left our chat...", now⟩
            none with _ | rb <;> simp only [hb] at h
        · exact Option.noConfusion h
        · rw [← (Option.some.inj h)]
          exact serverInv_afterBroadcast hb hinv2
      · have hold0 : findA s.rooms client.room = some room := hold
        have hinv2 : ServerInv
            (setRoom (removeClient s conn) client.room (removeMember room conn)) := by
          refine ⟨?_, ?_, ?_⟩
          · show (keysA (updA s.rooms client.room (removeMember room conn))).Nodup
            rw [keysA_updA]
            exact hnd
          · show "" ∉ keysA (updA s.rooms client.room (removeMember room conn))
            rw [keysA_updA]
            exact hne
          · intro rn r0 hfr cn hcn
            have hfr0 : findA (updA s.rooms client.room (removeMember room conn)) rn =
                some r0 := hfr
            by_cases hrn : rn = client.room
            · subst hrn
              rw [findA_updA_self hold0] at hfr0
              have : r0 = removeMember room conn := (Option.some.inj hfr0).symm
              subst this
              obtain ⟨hmem, hnc⟩ := mem_removeMember.mp hcn
              obtain ⟨cl, hcl, hclr⟩ := hcr client.room room hold0 cn hmem
              refine ⟨cl, ?_, hclr⟩
              show findA (delA s.clients conn) cn = some cl
              rw [findA_delA_ne hnc]
              exact hcl
            · rw [findA_updA_ne hrn] at hfr0
              obtain ⟨cl, hcl, hclr⟩ := hcr rn r0 hfr0 cn hcn
              by_cases hcc : cn = conn
              · exfalso
                have hclc : cl = client := by
                  rw [hcc, hc] at hcl
                  exact (Option.some.inj hcl).symm
                apply hrn
                rw [← hclr, hclc]
              · refine ⟨cl, ?_, hclr⟩
                show findA (delA s.clients conn) cn = some cl
                rw [findA_delA_ne hcc]
                exact hcl
        rcases hb : broadcast
            (setRoom (removeClient s conn) client.room (removeMember room conn))
            ⟨MessageTypeSystem, "", "", client.name ++ " has left our chat...", now⟩
            none with _ | rb <;> simp only [hb] at h
        · exact Option.noConfusion h
        · rw [← (Option.some.inj h)]
          exact serverInv_afterBroadcast hb hinv2

theorem serverInv_serverStep {s : Server} {e : SEvent} {r : Server × List Output}
    (hwf : ∀ conn name now, e = .register conn name now → lookupClient s conn = none)
    (h : serverStep s e = some r) (hinv : ServerInv s) : ServerInv r.1 := by
  cases e with
  | register conn name now => exact serverInv_registerStep (hwf conn name now rfl) h hinv
  | line conn raw now => exact serverInv_lineStep h hinv
  | disconnect conn now => exact serverInv_disconnectStep h hinv

theorem serverInv_runServer : ∀ (evs : List SEvent) (s : Server),
    ServerInv s → wfRun s evs = true → ∀ s', runServer s evs = some s' → ServerInv s' := by
  intro evs
  induction evs with
  | nil =>
    intro s hinv _ s' h
    have : s = s' := Option.some.inj h
    rw [← this]
    exact hinv
  | cons e es ih =>
    intro s hinv hwf s' h
    unfold runServer at h
    unfold wfRun at hwf
    rcases hstep : serverStep s e with _ | r <;> simp only [hstep] at h hwf
    · exact Option.noConfusion h
    · rw [Bool.and_eq_true] at hwf
      obtain ⟨hwf1, hwf2⟩ := hwf
      have hinv' : ServerInv r.1 := by
        apply serverInv_serverStep ?_ hstep hinv
        intro conn name now he
        subst he
        simp only at hwf1
        exact Option.isNone_iff_eq_none.mp hwf1
      exact ih r.1 hinv' hwf2 s' h

theorem serverInv_newServer : ServerInv newServer := by
  refine ⟨by decide, by decide, ?_⟩
  intro rn r hfr cn hcn
  have hfr0 : (if ("general" : String) = rn then
      some (⟨"general", [], []⟩ : ChatRoom) else none) = some r := hfr
  by_cases hg : ("general" : String) = rn
  · rw [if_pos hg] at hfr0
    have : r = ⟨"general", [], []⟩ := (Option.some.inj hfr0).symm
    rw [this] at hcn
    simp at hcn
  · rw [if_neg hg] at hfr0
    exact Option.noConfusion hfr0

theorem roomExcl_of_serverInv {s : Server} (hinv : ServerInv s) : RoomExcl s := by
  obtain ⟨hnd, _, hcr⟩ := hinv
  intro e1 he1 e2 he2 cn h1 h2
  have hf1 : findA s.rooms e1.1 = some e1.2 := findA_of_mem_nodup hnd he1
  have hf2 : findA s.rooms e2.1 = some e2.2 := findA_of_mem_nodup hnd he2
  obtain ⟨cl1, hcl1, hr1⟩ := hcr e1.1 e1.2 hf1 cn h1
  obtain ⟨cl2, hcl2, hr2⟩ := hcr e2.1 e2.2 hf2 cn h2
  have hcc : cl1 = cl2 := by
    rw [hcl1] at hcl2
    exact Option.some.inj hcl2
  have hk : e1.1 = e2.1 := by rw [← hr1, hcc, hr2]
  exact eq_of_mem_keys_nodup hnd he1 he2 hk

/-- **C2.** On every state the server can reach — any run of registration,
input-line and disconnect session steps from `NewServer`, with each
`register` using a fresh connection handle as the transport guarantees —
every connection appears in the member set of at most one room.  The proof
maintains `ServerInv` across every membership-changing operation
(`joinRoom`'s removal-then-insertion, the disconnect cleanup, and all
other handlers), so each such operation preserves the invariant. -/
theorem room_membership_exclusive (evs : List SEvent)
    (hwf : wfRun newServer evs = true) :
    ∀ s, runServer newServer evs = some s → RoomExcl s := by
  intro s h
  exact roomExcl_of_serverInv (serverInv_runServer evs newServer serverInv_newServer hwf s h)

/-- Witness for `room_membership_exclusive`: a concrete run with two
clients, a re-join, a chat line and a disconnect. -/
theorem room_membership_exclusive_witness :
    wfRun newServer c2Trace = true ∧
    RoomExcl ((runServer newServer c2Trace).getD newServer) :=
  ⟨by decide, room_membership_exclusive c2Trace (by decide) _ (by rfl)⟩

end Netcat
